import Mathlib

/-!
Verification development for RepoArk (`main.go`): a tool that archives a Git
working tree (tracked files, untracked-non-ignored files, and the full `.git`
subtree, recursing into submodules) into a tar stream, and restores such a
stream into a target directory with skip-if-unchanged, permission-retry
removal, and post-restore cleanup of stale untracked files.

The embedding is shallow: the filesystem is a map from slash-separated
relative paths (modelled as `List String` of components) to objects; the
external `git` queries, the directory walk, and removal/permission outcomes
are oracle parameters, matching the program's use of them as black boxes.
-/

namespace RepoArk

/-- A slash-separated relative path, as its list of components.
`filepath.Join` on clean relative paths is list append, and the empty
path (Go `""`) is `[]`. -/
abbrev Path := List String

/-- An object in the filesystem: a regular file carries content, mode bits
and a modification time in nanoseconds; a directory carries nothing the
program ever reads on the skip path (its mtime is only compared under a
conjunct that is false for regular-file entries, see `restoreEntry`). -/
inductive FsObj where
  | file (content : List Nat) (mode : Nat) (mtime : Nat)
  | dir
deriving DecidableEq

/-- The filesystem state: what `os.Stat` answers at each path. -/
abbrev Fs := Path → Option FsObj

def Fs.empty : Fs := fun _ => none

/-- Model of `os.RemoveAll`: the path and everything below it disappears. -/
def osRemoveAll (fs : Fs) (p : Path) : Fs :=
  fun q => if p <+: q then none else fs q

/-- Writing (or truncating) a regular file at a path. -/
def fsUpdate (fs : Fs) (p : Path) (o : FsObj) : Fs :=
  fun q => if q = p then some o else fs q

/-- Model of `os.Chmod` on a regular file. -/
def osChmod (fs : Fs) (p : Path) (m : Nat) : Fs :=
  fun q =>
    if q = p then
      match fs p with
      | some (FsObj.file c _ t) => some (FsObj.file c m t)
      | o => o
    else fs q

/-- Model of `os.Chtimes` on a regular file. -/
def osChtimes (fs : Fs) (p : Path) (t : Nat) : Fs :=
  fun q =>
    if q = p then
      match fs p with
      | some (FsObj.file c m _) => some (FsObj.file c m t)
      | o => o
    else fs q

/-- All prefixes of a path, from `[]` up to the path itself. -/
def pathPrefixes (d : Path) : List Path :=
  (List.range (d.length + 1)).map (fun i => d.take i)

def isFileAt (fs : Fs) (p : Path) : Bool :=
  match fs p with
  | some (FsObj.file _ _ _) => true
  | _ => false

/-- Whether some prefix of `d` (including `d` itself) holds a regular file;
`os.MkdirAll` fails with `ENOTDIR` exactly then. -/
def hasFileAlong (fs : Fs) (d : Path) : Bool :=
  (pathPrefixes d).any (fun q => isFileAt fs q)

/-- The directories `os.MkdirAll d` creates: every missing nonempty
portion of the path becomes a directory, existing objects are kept. -/
def addDirs (fs : Fs) (d : Path) : Fs :=
  fun q =>
    match fs q with
    | some o => some o
    | none => if q ≠ [] ∧ q <+: d then some FsObj.dir else none

/-- Model of `os.MkdirAll`: fails iff a regular file sits on the path. -/
def osMkdirAll (fs : Fs) (d : Path) : Option Fs :=
  if hasFileAlong fs d then none else some (addDirs fs d)

/-- Go `time.Time.Round(time.Second)` on a nonnegative nanosecond
timestamp: nearest second, half rounded up. Two rounded times are equal
iff these second counts are equal. -/
def roundSec (t : Nat) : Nat := (t + 500000000) / 1000000000

/-! ## Archive side: tar entries and repository enumeration (`main.go` 23-182) -/

/-- Tar entry kinds relevant to the program: `tar.TypeReg`, `tar.TypeDir`,
and non-regular kinds such as symbolic links. -/
inductive TypeFlag where
  | reg
  | dir
  | symlink
  | other
deriving DecidableEq

/-- A tar header together with the entry's content stream
(`archive/tar` delivers the content right after the header). -/
structure Header where
  name : Path
  typeflag : TypeFlag
  mode : Nat
  mtime : Nat
  content : List Nat
deriving DecidableEq

/-- One repository (or submodule) awaiting traversal: `RootDir` in the
source. `pre` is the archive-internal path of this root (`Prefix`),
`dir` its filesystem path (`Dir`). -/
structure RootDir where
  pre : Path
  dir : Path
deriving DecidableEq

/-- The external git queries used by the archive side, as black boxes:
`lsFiles d` is the line list of `git -C d ls-files --others
--exclude-standard --cached` (`none` = the command failed);
`isSubmodule d e` tells whether `git -C d submodule status e` succeeds;
`gitWalk d` is the list of regular files found by walking `d/.git`,
as paths relative to `d` (`none` = the walk failed). -/
structure GOracle where
  lsFiles : Path → Option (List Path)
  isSubmodule : Path → Path → Bool
  gitWalk : Path → Option (List Path)

/-- The scan loop of `addEntry` (`main.go` 92-124) over the `ls-files`
output of one root: emits a tar header per regular file and collects the
submodule roots pushed onto the work list, both in scan order. Blank
lines and vanished paths are skipped; a directory that is a submodule is
queued, a plain directory is dropped. Note the queued root's `pre` is
`Join(rootDir.Prefix, archivePath)` where `archivePath` is already
`Join(rootDir.Prefix, entry)`: the source joins the prefix twice. -/
def processLsEntries (O : GOracle) (src : Fs) (rd : RootDir) :
    List Path → List Header × List RootDir
  | [] => ([], [])
  | e :: es =>
    if e = [] then processLsEntries O src rd es
    else
      match src (rd.dir ++ e) with
      | none => processLsEntries O src rd es
      | some FsObj.dir =>
        if O.isSubmodule rd.dir e then
          ((processLsEntries O src rd es).1,
            RootDir.mk (rd.pre ++ (rd.pre ++ e)) (rd.dir ++ e)
              :: (processLsEntries O src rd es).2)
        else processLsEntries O src rd es
      | some (FsObj.file c m t) =>
        (Header.mk (rd.pre ++ e) TypeFlag.reg m t c :: (processLsEntries O src rd es).1,
          (processLsEntries O src rd es).2)

/-- Headers for the `.git` walk of one root (`main.go` 126-146 together
with `addFileToArchive`): each walked file is opened and its stat data
becomes the header; a path the walk reported but that is not a regular
file in the source makes `addFileToArchive` fail. -/
def walkHeaders (src : Fs) (rd : RootDir) : List Path → Option (List Header)
  | [] => some []
  | w :: ws =>
    match src (rd.dir ++ w) with
    | some (FsObj.file c m t) =>
      match walkHeaders src rd ws with
      | none => none
      | some hs => some (Header.mk (rd.pre ++ w) TypeFlag.reg m t c :: hs)
    | _ => none

/-- The work-list recursion of `addEntry` (`main.go` 73-150): pop the
first root, emit its `ls-files` file headers, then its `.git` walk
headers, then recurse on the rest of the queue with the discovered
submodule roots appended. `fuel` bounds the recursion depth (the Go
recursion has no intrinsic bound when the oracle keeps producing
submodules); `none` signals a failed git query, walk, or file open. -/
def addEntry (O : GOracle) (src : Fs) : Nat → List RootDir → Option (List Header)
  | _, [] => some []
  | 0, _ :: _ => none
  | fuel + 1, rd :: rest =>
    match O.lsFiles rd.dir with
    | none => none
    | some es =>
      match O.gitWalk rd.dir with
      | none => none
      | some ws =>
        match walkHeaders src rd ws with
        | none => none
        | some gs =>
          match addEntry O src fuel (rest ++ (processLsEntries O src rd es).2) with
          | none => none
          | some hs2 => some ((processLsEntries O src rd es).1 ++ gs ++ hs2)

/-- Error taxonomy of `archiveGitRepo`. -/
inductive AErr where
  | accessError
  | notADirectory
  | notAGitRepo
  | createError
  | enumError
deriving DecidableEq

/-- Oracles for `archiveGitRepo`: the enumeration oracles plus the
`git rev-parse --is-inside-work-tree` check and the outcome of
`os.Create` on the output path. -/
structure AOracle extends GOracle where
  isInsideWorkTree : Path → Bool
  createOk : Bool

/-- Model of `archiveGitRepo` (`main.go` 23-70). The second component
records whether `os.Create(outputPath)` was reached: validation failures
(stat error, not a directory, not a git work tree) return before it. -/
def archiveGitRepo (O : AOracle) (src : Fs) (fuel : Nat) (repoPath : Path) :
    Except AErr (List Header) × Bool :=
  match src repoPath with
  | none => (Except.error AErr.accessError, false)
  | some (FsObj.file _ _ _) => (Except.error AErr.notADirectory, false)
  | some FsObj.dir =>
    if O.isInsideWorkTree repoPath then
      if O.createOk then
        match addEntry O.toGOracle src fuel [RootDir.mk [] repoPath] with
        | none => (Except.error AErr.enumError, true)
        | some hs => (Except.ok hs, true)
      else (Except.error AErr.createError, true)
    else (Except.error AErr.notAGitRepo, false)

/-! ## Restore side (`main.go` 185-328) -/

/-- Outcome of one `os.RemoveAll` attempt as classified by the source:
success, a permission error (`os.IsPermission`), or any other error. -/
inductive RmOutcome where
  | ok
  | permDenied
  | otherErr
deriving DecidableEq

/-- The removal/permission oracle for one call of `removeExistingPath`:
the first `os.RemoveAll` outcome, whether the `os.Chmod(path, 0666)`
escalation succeeds, and the second `os.RemoveAll` outcome. -/
structure RmOracle where
  firstTry : RmOutcome
  chmodOk : Bool
  secondTry : RmOutcome
deriving DecidableEq

/-- Model of `removeExistingPath` (`main.go` 282-300). Returns whether
the removal ultimately succeeded, paired with how many `os.RemoveAll`
calls were made: the delete is retried (exactly once) only when the
first attempt fails with a permission error and the chmod escalation
succeeds; any other failure, or a failed retry, is an error. -/
def removeExistingPath (o : RmOracle) : Bool × Nat :=
  match o.firstTry with
  | RmOutcome.ok => (true, 1)
  | RmOutcome.permDenied =>
    if o.chmodOk then (decide (o.secondTry = RmOutcome.ok), 2)
    else (false, 1)
  | RmOutcome.otherErr => (false, 1)

/-- Error taxonomy of the restore path. -/
inductive RErr where
  | mkdirRepoError
  | removeError
  | dirFileRemoveError
  | mkdirError
  | openError
  | queryError
deriving DecidableEq

/-- The mutable state of a restore run: the target filesystem, the
`extractedPaths` set (as a list, queried by membership), and the paths
reported by the `restore`, `skip` and `remove` progress prints. -/
structure RestoreState where
  fs : Fs
  extracted : List Path
  written : List Path
  skipped : List Path
  removed : List Path

/-- Oracles for the restore side: per-path removal outcomes for
`removeExistingPath`, and the `git -C repoPath ls-files --others
--exclude-standard` query on the current target state (`none` = the
command failed). -/
structure ROracle where
  rm : Path → RmOracle
  untracked : Fs → Option (List Path)

/-- The write half of `extractFile` (`main.go` 312-327): `os.MkdirAll`
on the parent, then `os.OpenFile(..., O_CREATE|O_TRUNC|O_WRONLY,
header.Mode)` and the content copy. `now` is the wall clock stamped on
the fresh write before `os.Chtimes` overwrites it. -/
def extractFileWrite (now : Nat) (target : Path) (h : Header) (fs : Fs) :
    Except RErr Fs :=
  match osMkdirAll fs target.dropLast with
  | none => Except.error RErr.mkdirError
  | some fs1 =>
    match fs1 target with
    | some FsObj.dir => Except.error RErr.openError
    | _ => Except.ok (fsUpdate fs1 target (FsObj.file h.content h.mode now))

/-- Model of `extractFile` (`main.go` 302-328): if the parent directory
path is occupied by a regular file it is removed first (through
`removeExistingPath`), then the directory chain is created and the
content written. -/
def extractFile (rm : Path → RmOracle) (now : Nat) (target : Path) (h : Header)
    (fs : Fs) : Except RErr Fs :=
  match fs target.dropLast with
  | some (FsObj.file _ _ _) =>
    if (removeExistingPath (rm target.dropLast)).1 then
      extractFileWrite now target h (osRemoveAll fs target.dropLast)
    else Except.error RErr.dirFileRemoveError
  | _ => extractFileWrite now target h fs

/-- The write-then-chmod-then-chtimes sequence of the restore loop
(`main.go` 240-250) and the `restore` progress print. -/
def writeEntry (rm : Path → RmOracle) (now : Nat) (target : Path) (h : Header)
    (st : RestoreState) : Except RErr RestoreState :=
  match extractFile rm now target h st.fs with
  | Except.error e => Except.error e
  | Except.ok fs1 =>
    Except.ok { st with
      fs := osChtimes (osChmod fs1 target h.mode) target h.mtime,
      written := st.written ++ [target] }

/-- The skip test of `main.go` 229 for an existing object, in a context
where the entry's typeflag is `reg` (established on line 221): for an
existing regular file the test is mtime equality at one-second rounding
conjoined with `IsDir() == (Typeflag == TypeDir)`, which for a
regular-file entry demands a non-directory; an existing directory
therefore fails the conjunction whatever its mtime, so the directory
mtime (unmodelled) is never consulted. -/
def skipCheck (o : FsObj) (h : Header) : Bool :=
  match o with
  | FsObj.file _ _ t =>
    decide (roundSec t = roundSec h.mtime) && !(h.typeflag == TypeFlag.dir)
  | FsObj.dir => false

/-- One iteration of the restore loop (`main.go` 212-251): non-regular
entries are passed over silently; a regular entry's path is recorded in
`extractedPaths` before the skip test; an existing object either causes
a skip (same rounded mtime, non-directory) or is removed; then the
content is written and mode and mtime restored from the header. -/
def restoreEntry (O : ROracle) (now : Nat) (repoPath : Path)
    (st : RestoreState) (h : Header) : Except RErr RestoreState :=
  if h.typeflag ≠ TypeFlag.reg then Except.ok st
  else
    let st1 := { st with extracted := st.extracted ++ [h.name] }
    let target := repoPath ++ h.name
    match st.fs target with
    | some o =>
      if skipCheck o h then
        Except.ok { st1 with skipped := st1.skipped ++ [target] }
      else if (removeExistingPath (O.rm target)).1 then
        writeEntry O.rm now target h { st1 with fs := osRemoveAll st1.fs target }
      else Except.error RErr.removeError
    | none => writeEntry O.rm now target h st1

/-- The restore loop over the whole entry stream. -/
def restoreEntries (O : ROracle) (now : Nat) (repoPath : Path) :
    RestoreState → List Header → Except RErr RestoreState
  | st, [] => Except.ok st
  | st, h :: hs =>
    match restoreEntry O now repoPath st h with
    | Except.error e => Except.error e
    | Except.ok st1 => restoreEntries O now repoPath st1 hs

/-- The post-restore reconciliation loop (`main.go` 261-274) over the
untracked file list: blank lines and freshly extracted paths are
skipped; anything else is removed through `removeExistingPath`, whose
returned error the source discards (line 273), so a failed removal
leaves the file behind and the loop continues. -/
def cleanupStale (rm : Path → RmOracle) (repoPath : Path) :
    RestoreState → List Path → RestoreState
  | st, [] => st
  | st, p :: ps =>
    if p = [] then cleanupStale rm repoPath st ps
    else if p ∈ st.extracted then cleanupStale rm repoPath st ps
    else
      let target := repoPath ++ p
      let st1 :=
        if (removeExistingPath (rm target)).1 then
          { st with fs := osRemoveAll st.fs target,
                    removed := st.removed ++ [target] }
        else st
      cleanupStale rm repoPath st1 ps

/-- Model of `restoreGitRepo` (`main.go` 185-279): ensure the target
directory exists, extract the entry stream, then query the target's
untracked-non-ignored files and reconcile. -/
def restoreGitRepo (O : ROracle) (now : Nat) (repoPath : Path)
    (entries : List Header) (fs0 : Fs) : Except RErr RestoreState :=
  match osMkdirAll fs0 repoPath with
  | none => Except.error RErr.mkdirRepoError
  | some fs1 =>
    match restoreEntries O now repoPath (RestoreState.mk fs1 [] [] [] []) entries with
    | Except.error e => Except.error e
    | Except.ok st =>
      match O.untracked st.fs with
      | none => Except.error RErr.queryError
      | some u => Except.ok (cleanupStale O.rm repoPath st u)

/-! ## Observation helpers for closed statements -/

def isOkE {ε α : Type} : Except ε α → Bool
  | Except.ok _ => true
  | Except.error _ => false

def resExtracted : Except RErr RestoreState → Option (List Path)
  | Except.ok st => some st.extracted
  | Except.error _ => none

def resWritten : Except RErr RestoreState → Option (List Path)
  | Except.ok st => some st.written
  | Except.error _ => none

def resRemoved : Except RErr RestoreState → Option (List Path)
  | Except.ok st => some st.removed
  | Except.error _ => none

def resFsAt (r : Except RErr RestoreState) (p : Path) : Option (Option FsObj) :=
  match r with
  | Except.ok st => some (st.fs p)
  | Except.error _ => none

def resSkipped : Except RErr RestoreState → Option (List Path)
  | Except.ok st => some st.skipped
  | Except.error _ => none

/-- The final filesystem of a successful restore (empty on error). -/
def resFs : Except RErr RestoreState → Fs
  | Except.ok st => st.fs
  | Except.error _ => Fs.empty

/-! ## Well-formedness predicates -/

/-- Non-interference of two paths: neither is a prefix of the other.
Distinct regular files of a real filesystem always satisfy this. -/
def NP (a b : Path) : Prop := ¬ a <+: b ∧ ¬ b <+: a

/-- Filesystem consistency: every proper nonempty ancestor of an
existing object is a directory. Every real directory tree satisfies
this; it is what makes a regular file unable to shadow or contain
another object. -/
def Consistent (fs : Fs) : Prop :=
  ∀ p q : Path, p ≠ [] → p <+: q → p ≠ q → fs q ≠ none → fs p = some FsObj.dir

/-- A well-formed filesystem: consistent, and the empty path (the
target root itself) is absent or a directory, never a regular file. -/
def GoodFs (fs : Fs) : Prop :=
  Consistent fs ∧ (fs [] = none ∨ fs [] = some FsObj.dir)

/-- Every nonempty portion of the repository path is a directory. -/
def BaseDirs (r : Path) (fs : Fs) : Prop :=
  ∀ q : Path, q ≠ [] → q <+: r → fs q = some FsObj.dir

/-- A regular file sits at `x` whose mtime rounds to the same second as
`mt`: exactly what the restore skip test looks for. -/
def FileRoundAt (fs : Fs) (x : Path) (mt : Nat) : Prop :=
  ∃ c m t, fs x = some (FsObj.file c m t) ∧ roundSec t = roundSec mt

/-- Soundness of the untracked-files query relative to the repository
path: every reported path is a regular file of the queried filesystem
(what `git ls-files --others --exclude-standard` reports), and the
query itself succeeds. -/
def UntrackedSound (RO : ROracle) (r : Path) : Prop :=
  ∀ fs : Fs, ∃ u, RO.untracked fs = some u ∧
    ∀ p ∈ u, ∃ c m t, fs (r ++ p) = some (FsObj.file c m t)

/-- The filesystem a restore of `es` into an empty directory at `r`
should produce: the entry files, plus the directory chains leading to
them (and to `r` itself). -/
def expectedFs (r : Path) (es : List Header) : Fs := fun q =>
  match es.find? (fun h => decide (r ++ h.name = q)) with
  | some h => some (FsObj.file h.content h.mode h.mtime)
  | none =>
    if q ≠ [] ∧ (q <+: r ∨ ∃ h ∈ es, q <+: r ++ h.name ∧ q ≠ r ++ h.name)
    then some FsObj.dir else none

instance instDecidableNP (a b : Path) : Decidable (NP a b) :=
  inferInstanceAs (Decidable (¬ (a <+: b) ∧ ¬ (b <+: a)))

/-! ## Concrete instances used to exercise the model -/

/-- A removal oracle on which every `os.RemoveAll` succeeds first try. -/
def trivRm : Path → RmOracle := fun _ => RmOracle.mk RmOutcome.ok true RmOutcome.ok

/-- A removal oracle on which every removal fails with a non-permission
error (so the escalation retry is not even attempted). -/
def failRm : Path → RmOracle := fun _ => RmOracle.mk RmOutcome.otherErr false RmOutcome.otherErr

/-- Restore oracles with trouble-free removal and no untracked files. -/
def trivRO : ROracle := ROracle.mk trivRm (fun _ => some [])

/-- A filesystem holding exactly one object at a one-component path. -/
def singletonFs (nm : String) (o : FsObj) : Fs :=
  fun q => if q = [nm] then some o else none

/-- Source tree for the nested-submodule example: repository `R` holds a
submodule `s`, which holds a submodule `t`, which holds a file `f`. -/
def c5src : Fs := fun q =>
  if q = ["R"] then some FsObj.dir
  else if q = ["R", "s"] then some FsObj.dir
  else if q = ["R", "s", "t"] then some FsObj.dir
  else if q = ["R", "s", "t", "f"] then some (FsObj.file [7] 420 1000000000)
  else none

/-- Git oracles for the nested-submodule example. -/
def c5G : GOracle :=
  GOracle.mk
    (fun d =>
      if d = ["R"] then some [["s"]]
      else if d = ["R", "s"] then some [["t"]]
      else if d = ["R", "s", "t"] then some [["f"]]
      else some [])
    (fun d e => (d = ["R"] && e = ["s"]) || (d = ["R", "s"] && e = ["t"]))
    (fun _ => some [])

/-- Source tree for the duplicate-path example: repository `R` holds a
submodule `s`; inside `s` there is a registered submodule `t` holding the
file `z`, and also an ordinary directory chain `s/t` holding a file `z`. -/
def c7src : Fs := fun q =>
  if q = ["R"] then some FsObj.dir
  else if q = ["R", "s"] then some FsObj.dir
  else if q = ["R", "s", "t"] then some FsObj.dir
  else if q = ["R", "s", "t", "z"] then some (FsObj.file [1] 420 0)
  else if q = ["R", "s", "s"] then some FsObj.dir
  else if q = ["R", "s", "s", "t"] then some FsObj.dir
  else if q = ["R", "s", "s", "t", "z"] then some (FsObj.file [2] 420 0)
  else none

/-- Git oracles for the duplicate-path example: `ls-files` of the
submodule `s` reports both its registered submodule `t` and its ordinary
untracked file `s/t/z`. -/
def c7G : GOracle :=
  GOracle.mk
    (fun d =>
      if d = ["R"] then some [["s"]]
      else if d = ["R", "s"] then some [["t"], ["s", "t", "z"]]
      else if d = ["R", "s", "t"] then some [["z"]]
      else some [])
    (fun d e => (d = ["R"] && e = ["s"]) || (d = ["R", "s"] && e = ["t"]))
    (fun _ => some [])

/-- Restore oracles where every removal fails and the target directory
reports one untracked file `junk`. -/
def c8RO : ROracle := ROracle.mk failRm (fun _ => some [["junk"]])

/-- A target tree holding just the stale untracked file `junk`. -/
def c8fs : Fs := singletonFs "junk" (FsObj.file [] 420 0)

/-- Source tree for the round-trip example: repository `R` with the
single file `a`. -/
def c1src : Fs := fun q =>
  if q = ["R"] then some FsObj.dir
  else if q = ["R", "a"] then some (FsObj.file [1] 420 5)
  else none

/-- Git oracles for the round-trip example. -/
def c1G : GOracle :=
  GOracle.mk (fun d => if d = ["R"] then some [["a"]] else some [])
    (fun _ _ => false) (fun _ => some [])

/-- Archive oracles whose repository-validity check always fails. -/
def c10O : AOracle :=
  AOracle.mk (GOracle.mk (fun _ => some []) (fun _ _ => false) (fun _ => some []))
    (fun _ => false) true

/-- Archive oracles for the duplicate-path repository: the git oracles
of the `c7` example, a passing work-tree check, and a creatable output
file. -/
def dupA : AOracle := AOracle.mk c7G (fun _ => true) true

/-- The entry stream the program archives from `c7src`: the same path
`s/s/t/z` twice, with contents `[2]` and `[1]`. -/
def c1es : List Header :=
  [Header.mk ["s", "s", "t", "z"] TypeFlag.reg 420 0 [2],
   Header.mk ["s", "s", "t", "z"] TypeFlag.reg 420 0 [1]]

/-- The duplicate-path source tree with the two colliding files one
rounded second apart: the nested submodule file `R/s/t/z` has mtime 2s,
the parent's literal untracked file `R/s/s/t/z` has mtime 0. -/
def c2src : Fs := fun q =>
  if q = ["R"] then some FsObj.dir
  else if q = ["R", "s"] then some FsObj.dir
  else if q = ["R", "s", "t"] then some FsObj.dir
  else if q = ["R", "s", "t", "z"] then some (FsObj.file [1] 420 2000000000)
  else if q = ["R", "s", "s"] then some FsObj.dir
  else if q = ["R", "s", "s", "t"] then some FsObj.dir
  else if q = ["R", "s", "s", "t", "z"] then some (FsObj.file [2] 420 0)
  else none

/-- The entry stream the program archives from `c2src`: the path
`s/s/t/z` twice, with rounded mtimes 0 and 2. -/
def c2es : List Header :=
  [Header.mk ["s", "s", "t", "z"] TypeFlag.reg 420 0 [2],
   Header.mk ["s", "s", "t", "z"] TypeFlag.reg 420 2000000000 [1]]

end RepoArk

namespace RepoArk

/-! ## Path lemmas -/

theorem mem_pathPrefixes {q d : Path} : q ∈ pathPrefixes d ↔ q <+: d := by
  constructor
  · intro hq
    obtain ⟨i, _, rfl⟩ := List.mem_map.mp hq
    exact List.take_prefix i d
  · intro hq
    refine List.mem_map.mpr ⟨q.length, List.mem_range.mpr (Nat.lt_succ_of_le hq.length_le), ?_⟩
    exact (List.prefix_iff_eq_take.mp hq).symm

theorem dropLast_pre (l : Path) : l.dropLast <+: l :=
  List.dropLast_prefix l

theorem not_append_prefix_self {r a : Path} (ha : a ≠ []) : ¬ (r ++ a <+: r) := by
  intro h
  have hlen := h.length_le
  simp only [List.length_append] at hlen
  have : 0 < a.length := List.length_pos.mpr ha
  omega

theorem append_ne_nil_right {r a : Path} (ha : a ≠ []) : r ++ a ≠ [] := by
  intro h
  rcases List.append_eq_nil.mp h with ⟨_, h2⟩
  exact ha h2

theorem prefix_dropLast_of_strict {q l : Path} (h : q <+: l) (hne : q ≠ l) :
    q <+: l.dropLast := by
  obtain ⟨s, rfl⟩ := h
  have hs : s ≠ [] := by
    intro h0
    exact hne (by simp [h0])
  rw [List.dropLast_append_of_ne_nil _ hs]
  exact List.prefix_append q s.dropLast

theorem strict_of_prefix_dropLast {q l : Path} (hl : l ≠ []) (h : q <+: l.dropLast) :
    q <+: l ∧ q ≠ l := by
  refine ⟨h.trans (dropLast_pre l), ?_⟩
  rintro rfl
  have hlen := h.length_le
  rw [List.length_dropLast] at hlen
  have : 0 < q.length := List.length_pos.mpr hl
  omega

theorem dropLast_append_ne {r a : Path} (ha : a ≠ []) :
    (r ++ a).dropLast = r ++ a.dropLast :=
  List.dropLast_append_of_ne_nil _ ha

theorem append_prefix_append {r a b : Path} : r ++ a <+: r ++ b ↔ a <+: b :=
  List.prefix_append_right_inj r

theorem append_inj_right {r a b : Path} (h : r ++ a = r ++ b) : a = b :=
  List.append_cancel_left h

theorem NP.ne {a b : Path} (h : NP a b) : a ≠ b := by
  rintro rfl
  exact h.1 List.prefix_rfl

theorem NP.symm {a b : Path} (h : NP a b) : NP b a := ⟨h.2, h.1⟩

/-! ## Filesystem operation lemmas -/

theorem isFileAt_false_iff {fs : Fs} {q : Path} :
    isFileAt fs q = false ↔ (fs q = none ∨ fs q = some FsObj.dir) := by
  cases hq : fs q with
  | none => simp [isFileAt, hq]
  | some o => cases o <;> simp [isFileAt, hq]

theorem isFileAt_true_iff {fs : Fs} {q : Path} :
    isFileAt fs q = true ↔ ∃ c m t, fs q = some (FsObj.file c m t) := by
  cases hq : fs q with
  | none => simp [isFileAt, hq]
  | some o => cases o <;> simp [isFileAt, hq]

theorem hasFileAlong_false_iff {fs : Fs} {d : Path} :
    hasFileAlong fs d = false ↔ ∀ q, q <+: d → isFileAt fs q = false := by
  unfold hasFileAlong
  rw [List.any_eq_false]
  constructor
  · intro h q hq
    have := h q (mem_pathPrefixes.mpr hq)
    simpa using this
  · intro h q hq
    simpa using h q (mem_pathPrefixes.mp hq)

theorem goodFs_osRemoveAll {fs : Fs} (h : GoodFs fs) (p : Path) :
    GoodFs (osRemoveAll fs p) := by
  obtain ⟨hc, hr⟩ := h
  constructor
  · intro a b ha hab hne hb
    simp only [osRemoveAll] at hb ⊢
    by_cases hpb : p <+: b
    · simp [hpb] at hb
    · have hpa : ¬ p <+: a := fun hpa => hpb (hpa.trans hab)
      simp only [hpb, if_false] at hb
      simp [hpa]
      exact hc a b ha hab hne hb
  · simp only [osRemoveAll]
    by_cases hp : p <+: ([] : Path)
    · left
      simp [hp]
    · simpa [hp] using hr

theorem baseDirs_osRemoveAll_append {r : Path} {fs : Fs} {a : Path}
    (h : BaseDirs r fs) (ha : a ≠ []) : BaseDirs r (osRemoveAll fs (r ++ a)) := by
  intro q hq hqr
  have hnp : ¬ (r ++ a <+: q) := fun hc => not_append_prefix_self ha (hc.trans hqr)
  simp only [osRemoveAll, hnp, if_false]
  exact h q hq hqr

theorem goodFs_addDirs {fs : Fs} {d : Path} (h : GoodFs fs)
    (hno : hasFileAlong fs d = false) : GoodFs (addDirs fs d) := by
  obtain ⟨hc, hr⟩ := h
  have hfile : ∀ q, q <+: d → isFileAt fs q = false := hasFileAlong_false_iff.mp hno
  constructor
  · intro a b ha hab hne hb
    simp only [addDirs] at hb ⊢
    have hbfacts : fs b ≠ none ∨ (b ≠ [] ∧ b <+: d) := by
      cases hfb : fs b with
      | some o => exact Or.inl (by simp [hfb])
      | none =>
        simp only [hfb] at hb
        by_cases hcond : b ≠ [] ∧ b <+: d
        · exact Or.inr hcond
        · simp [hcond] at hb
    cases hfa : fs a with
    | some o =>
      have hadir : fs a = some FsObj.dir := by
        rcases hbfacts with hbne | ⟨_, hbd⟩
        · exact hc a b ha hab hne hbne
        · have had : a <+: d := hab.trans hbd
          rcases isFileAt_false_iff.mp (hfile a had) with h0 | h0
          · rw [h0] at hfa
            exact absurd hfa (by simp)
          · exact h0
      rw [hfa] at hadir
      simp [hadir]
    | none =>
      have had : a <+: d := by
        rcases hbfacts with hbne | ⟨_, hbd⟩
        · have := hc a b ha hab hne hbne
          rw [hfa] at this
          exact absurd this (by simp)
        · exact hab.trans hbd
      simp [ha, had]
  · simp only [addDirs]
    rcases hr with h0 | h0 <;> simp [h0]

theorem baseDirs_addDirs {r : Path} {fs : Fs} {d : Path} (h : BaseDirs r fs) :
    BaseDirs r (addDirs fs d) := by
  intro q hq hqr
  have := h q hq hqr
  simp only [addDirs, this]

theorem goodFs_fsUpdate_file {fs : Fs} {t : Path} {c : List Nat} {m mt : Nat}
    (h : GoodFs fs) (ht : t ≠ [])
    (hanc : ∀ p, p ≠ [] → p <+: t → p ≠ t → fs p = some FsObj.dir)
    (hdesc : ∀ q, t <+: q → t ≠ q → fs q = none) :
    GoodFs (fsUpdate fs t (FsObj.file c m mt)) := by
  obtain ⟨hc, hr⟩ := h
  constructor
  · intro a b ha hab hne hb
    simp only [fsUpdate] at hb ⊢
    by_cases hbt : b = t
    · have hat : a ≠ t := fun h0 => hne (h0.trans hbt.symm)
      simp only [hat, if_false]
      exact hanc a ha (hbt ▸ hab) hat
    · simp only [hbt, if_false] at hb
      by_cases hat : a = t
      · exact absurd (hdesc b (hat ▸ hab) (fun h0 => hne (hat.trans h0).symm.symm)) hb
      · simp only [hat, if_false]
        exact hc a b ha hab hne hb
  · have h0 : ([] : Path) ≠ t := fun h0 => ht h0.symm
    simp only [fsUpdate, h0, if_false]
    exact hr

theorem baseDirs_fsUpdate {r : Path} {fs : Fs} {t : Path} {o : FsObj}
    (h : BaseDirs r fs) (ht : ∀ q, q ≠ [] → q <+: r → q ≠ t) :
    BaseDirs r (fsUpdate fs t o) := by
  intro q hq hqr
  simp only [fsUpdate, ht q hq hqr, if_false]
  exact h q hq hqr

theorem chmod_chtimes_update {fs : Fs} {t : Path} {c : List Nat} {m now mt : Nat} :
    osChtimes (osChmod (fsUpdate fs t (FsObj.file c m now)) t m) t mt
      = fsUpdate fs t (FsObj.file c m mt) := by
  funext q
  by_cases hq : q = t <;> simp [osChtimes, osChmod, fsUpdate, hq]

/-! ## The filesystem produced by restoring into an empty directory -/

theorem find?_names_none {r : Path} {es : List Header} {q : Path}
    (h : ∀ h' ∈ es, r ++ h'.name ≠ q) :
    es.find? (fun h' => decide (r ++ h'.name = q)) = none := by
  rw [List.find?_eq_none]
  intro x hx
  simp [h x hx]

theorem expectedFs_nil (r : Path) : expectedFs r [] = addDirs Fs.empty r := by
  funext q
  simp only [expectedFs, List.find?_nil, addDirs, Fs.empty]
  simp

theorem expectedFs_of_find_none {r : Path} {es : List Header} {q : Path}
    (hfd : es.find? (fun h' => decide (r ++ h'.name = q)) = none) :
    expectedFs r es q =
      if q ≠ [] ∧ (q <+: r ∨ ∃ h ∈ es, q <+: r ++ h.name ∧ q ≠ r ++ h.name)
      then some FsObj.dir else none := by
  simp only [expectedFs, hfd]

theorem expectedFs_not_file_below {r : Path} {done : List Header} {nm q : Path}
    (hnp : ∀ h' ∈ done, ¬ (h'.name <+: nm))
    (hq : q <+: r ++ nm) :
    isFileAt (expectedFs r done) q = false := by
  have hfind : done.find? (fun h' => decide (r ++ h'.name = q)) = none := by
    refine find?_names_none ?_
    intro h' hmem he
    have : r ++ h'.name <+: r ++ nm := he ▸ hq
    exact hnp h' hmem (append_prefix_append.mp this)
  rw [isFileAt_false_iff, expectedFs_of_find_none hfind]
  by_cases hcond : q ≠ [] ∧ (q <+: r ∨ ∃ h ∈ done, q <+: r ++ h.name ∧ q ≠ r ++ h.name)
  · right
    rw [if_pos hcond]
  · left
    rw [if_neg hcond]

theorem expectedFs_target_none {r : Path} {done : List Header} {h : Header}
    (hne : h.name ≠ [])
    (hnp : ∀ h' ∈ done, NP h.name h'.name) :
    expectedFs r done (r ++ h.name) = none := by
  have hfind : done.find? (fun h' => decide (r ++ h'.name = r ++ h.name)) = none := by
    refine find?_names_none ?_
    intro h' hmem he
    exact (hnp h' hmem).ne ((append_inj_right he).symm)
  rw [expectedFs_of_find_none hfind, if_neg]
  rintro ⟨-, hor⟩
  rcases hor with h0 | ⟨h', hmem, hpre, -⟩
  · exact not_append_prefix_self hne h0
  · exact (hnp h' hmem).1 (append_prefix_append.mp hpre)

theorem expectedFs_append_find {r : Path} {done : List Header} {h : Header} {q : Path}
    (hqt : q ≠ r ++ h.name) :
    (done ++ [h]).find? (fun h' => decide (r ++ h'.name = q))
      = done.find? (fun h' => decide (r ++ h'.name = q)) := by
  rw [List.find?_append]
  have hsingle : ([h] : List Header).find? (fun h' => decide (r ++ h'.name = q)) = none := by
    have hd : decide (r ++ h.name = q) = false :=
      decide_eq_false (fun h0 => hqt h0.symm)
    simp [List.find?_cons, hd]
  rw [hsingle]
  cases done.find? (fun h' => decide (r ++ h'.name = q)) <;> rfl

theorem expectedFs_step {r : Path} {done : List Header} {h : Header}
    (hne : h.name ≠ [])
    (hnp : ∀ h' ∈ done, NP h.name h'.name) :
    fsUpdate (addDirs (expectedFs r done) (r ++ h.name).dropLast) (r ++ h.name)
        (FsObj.file h.content h.mode h.mtime)
      = expectedFs r (done ++ [h]) := by
  funext q
  have htne : r ++ h.name ≠ [] := append_ne_nil_right hne
  by_cases hqt : q = r ++ h.name
  · have h1 : done.find? (fun h' => decide (r ++ h'.name = q)) = none := by
      refine find?_names_none ?_
      intro h' hmem he
      exact (hnp h' hmem).ne (append_inj_right (he.trans hqt)).symm
    have hfind : (done ++ [h]).find? (fun h' => decide (r ++ h'.name = q)) = some h := by
      rw [List.find?_append, h1]
      have hd : decide (r ++ h.name = q) = true := decide_eq_true hqt.symm
      simp [List.find?_cons, hd]
    rw [show fsUpdate (addDirs (expectedFs r done) (r ++ h.name).dropLast) (r ++ h.name)
          (FsObj.file h.content h.mode h.mtime) q
        = some (FsObj.file h.content h.mode h.mtime) from by simp [fsUpdate, hqt]]
    simp only [expectedFs, hfind]
  · have hstep : fsUpdate (addDirs (expectedFs r done) (r ++ h.name).dropLast) (r ++ h.name)
          (FsObj.file h.content h.mode h.mtime) q
        = addDirs (expectedFs r done) (r ++ h.name).dropLast q := by
      simp [fsUpdate, hqt]
    rw [hstep]
    cases hfd : done.find? (fun h' => decide (r ++ h'.name = q)) with
    | some h' =>
      have hv : expectedFs r done q = some (FsObj.file h'.content h'.mode h'.mtime) := by
        simp only [expectedFs, hfd]
      have hv2 : expectedFs r (done ++ [h]) q
          = some (FsObj.file h'.content h'.mode h'.mtime) := by
        simp only [expectedFs, expectedFs_append_find hqt, hfd]
      rw [hv2]
      simp only [addDirs, hv]
    | none =>
      have hfdall : (done ++ [h]).find? (fun h' => decide (r ++ h'.name = q)) = none := by
        rw [expectedFs_append_find hqt, hfd]
      have hv2 : expectedFs r (done ++ [h]) q =
          if q ≠ [] ∧ (q <+: r ∨ ∃ h' ∈ done ++ [h], q <+: r ++ h'.name ∧ q ≠ r ++ h'.name)
          then some FsObj.dir else none :=
        expectedFs_of_find_none hfdall
      rw [hv2, show addDirs (expectedFs r done) (r ++ h.name).dropLast q
          = match expectedFs r done q with
            | some o => some o
            | none => if q ≠ [] ∧ q <+: (r ++ h.name).dropLast then some FsObj.dir else none
          from rfl]
      rw [expectedFs_of_find_none hfd]
      by_cases hcd : q ≠ [] ∧ (q <+: r ∨ ∃ h' ∈ done, q <+: r ++ h'.name ∧ q ≠ r ++ h'.name)
      · rw [if_pos hcd]
        have hall : q ≠ [] ∧ (q <+: r ∨ ∃ h' ∈ done ++ [h], q <+: r ++ h'.name ∧ q ≠ r ++ h'.name) := by
          refine ⟨hcd.1, ?_⟩
          rcases hcd.2 with h0 | ⟨h', hmem, hp⟩
          · exact Or.inl h0
          · exact Or.inr ⟨h', List.mem_append.mpr (Or.inl hmem), hp⟩
        rw [if_pos hall]
      · rw [if_neg hcd]
        have hiff : q <+: (r ++ h.name).dropLast ↔ (q <+: r ++ h.name ∧ q ≠ r ++ h.name) := by
          constructor
          · exact strict_of_prefix_dropLast htne
          · intro hc
            exact prefix_dropLast_of_strict hc.1 hc.2
        by_cases hq0 : q = []
        · rw [if_neg (fun hc : q ≠ [] ∧ q <+: (r ++ h.name).dropLast => hc.1 hq0),
              if_neg (fun hc : q ≠ [] ∧ _ => hc.1 hq0)]
        · by_cases hstrict : q <+: r ++ h.name ∧ q ≠ r ++ h.name
          · rw [if_pos ⟨hq0, hiff.mpr hstrict⟩,
                if_pos ⟨hq0, Or.inr ⟨h, List.mem_append.mpr (Or.inr (List.mem_singleton.mpr rfl)), hstrict⟩⟩]
          · rw [if_neg (fun hc : q ≠ [] ∧ q <+: (r ++ h.name).dropLast => hstrict (hiff.mp hc.2))]
            rw [if_neg]
            rintro ⟨-, hor⟩
            rcases hor with h0 | ⟨h', hmem, hp⟩
            · exact hcd ⟨hq0, Or.inl h0⟩
            · rcases List.mem_append.mp hmem with hmem' | hmem'
              · exact hcd ⟨hq0, Or.inr ⟨h', hmem', hp⟩⟩
              · rw [List.mem_singleton.mp hmem'] at hp
                exact hstrict hp

/-! ## Characterizations of single restore steps -/

theorem not_self_prefix_dropLast {l : Path} (hl : l ≠ []) : ¬ (l <+: l.dropLast) := by
  intro h
  have h1 := h.length_le
  rw [List.length_dropLast] at h1
  have h2 : 0 < l.length := List.length_pos.mpr hl
  omega

theorem extractFile_no_parent_file {rm : Path → RmOracle} {now : Nat} {target : Path}
    {h : Header} {fs : Fs} (hd : isFileAt fs target.dropLast = false) :
    extractFile rm now target h fs = extractFileWrite now target h fs := by
  cases hv : fs target.dropLast with
  | none => simp [extractFile, hv]
  | some o =>
    cases o with
    | dir => simp [extractFile, hv]
    | file c m t =>
      rw [isFileAt, hv] at hd
      exact absurd hd (by simp)

theorem extractFileWrite_ok {now : Nat} {target : Path} {h : Header} {fs : Fs}
    (hno : hasFileAlong fs target.dropLast = false)
    (htarget : addDirs fs target.dropLast target ≠ some FsObj.dir) :
    extractFileWrite now target h fs
      = Except.ok (fsUpdate (addDirs fs target.dropLast) target
          (FsObj.file h.content h.mode now)) := by
  have hmk : osMkdirAll fs target.dropLast = some (addDirs fs target.dropLast) := by
    simp [osMkdirAll, hno]
  cases hv : addDirs fs target.dropLast target with
  | none => simp [extractFileWrite, hmk, hv]
  | some o =>
    cases o with
    | dir => exact absurd hv htarget
    | file c m t => simp [extractFileWrite, hmk, hv]

theorem writeEntry_clean {rm : Path → RmOracle} {now : Nat} {target : Path}
    {h : Header} {st : RestoreState}
    (hno : hasFileAlong st.fs target.dropLast = false)
    (htarget : addDirs st.fs target.dropLast target ≠ some FsObj.dir) :
    writeEntry rm now target h st = Except.ok
      { st with
        fs := fsUpdate (addDirs st.fs target.dropLast) target
          (FsObj.file h.content h.mode h.mtime),
        written := st.written ++ [target] } := by
  have hd : isFileAt st.fs target.dropLast = false :=
    hasFileAlong_false_iff.mp hno target.dropLast List.prefix_rfl
  rw [writeEntry, extractFile_no_parent_file hd, extractFileWrite_ok hno htarget]
  dsimp only
  rw [chmod_chtimes_update]

theorem restoreEntry_fresh {RO : ROracle} {now : Nat} {r : Path}
    {done : List Header} {h : Header} {st : RestoreState}
    (hfs : st.fs = expectedFs r done)
    (hreg : h.typeflag = TypeFlag.reg)
    (hne : h.name ≠ [])
    (hnp : ∀ h' ∈ done, NP h.name h'.name) :
    restoreEntry RO now r st h = Except.ok
      { st with fs := expectedFs r (done ++ [h]),
                extracted := st.extracted ++ [h.name],
                written := st.written ++ [r ++ h.name] } := by
  have htne : r ++ h.name ≠ [] := append_ne_nil_right hne
  have htarget_none : st.fs (r ++ h.name) = none := by
    rw [hfs]
    exact expectedFs_target_none hne hnp
  have hnotfile : ∀ q, q <+: r ++ h.name → isFileAt st.fs q = false := by
    intro q hq
    rw [hfs]
    exact expectedFs_not_file_below (fun h' hm => (hnp h' hm).2) hq
  have hno : hasFileAlong st.fs (r ++ h.name).dropLast = false := by
    rw [hasFileAlong_false_iff]
    intro q hq
    exact hnotfile q (hq.trans (dropLast_pre _))
  have htarget : addDirs st.fs (r ++ h.name).dropLast (r ++ h.name) ≠ some FsObj.dir := by
    simp [addDirs, htarget_none, fun hc : r ++ h.name <+: (r ++ h.name).dropLast =>
      not_self_prefix_dropLast htne hc]
  have hred : restoreEntry RO now r st h
      = writeEntry RO.rm now (r ++ h.name) h { st with extracted := st.extracted ++ [h.name] } := by
    simp [restoreEntry, hreg, htarget_none]
  rw [hred, @writeEntry_clean RO.rm now (r ++ h.name) h { st with extracted := st.extracted ++ [h.name] } hno htarget]
  rw [hfs, expectedFs_step hne hnp]

/-! ## Restoring a whole archive into a fresh directory -/

theorem restoreEntries_fresh {RO : ROracle} {now : Nat} {r : Path} (rest : List Header) :
    ∀ (done : List Header) (st : RestoreState),
    st.fs = expectedFs r done →
    (∀ h ∈ rest, h.typeflag = TypeFlag.reg) →
    (∀ h ∈ rest, h.name ≠ []) →
    (∀ h ∈ rest, ∀ h' ∈ done, NP h.name h'.name) →
    (rest.map Header.name).Pairwise NP →
    restoreEntries RO now r st rest = Except.ok
      { st with fs := expectedFs r (done ++ rest),
                extracted := st.extracted ++ rest.map Header.name,
                written := st.written ++ rest.map (fun h => r ++ h.name) } := by
  induction rest with
  | nil =>
    intro done st hfs _ _ _ _
    simp only [restoreEntries, List.map_nil, List.append_nil]
    rw [← hfs]
  | cons h rest ih =>
    intro done st hfs hreg hne hcross hpw
    simp only [List.map_cons, List.pairwise_cons] at hpw
    have hstep := @restoreEntry_fresh RO now r done h st hfs
      (hreg h (by simp)) (hne h (by simp)) (fun h' hm => hcross h (by simp) h' hm)
    rw [restoreEntries, hstep]
    dsimp only
    rw [ih (done ++ [h])
        { st with fs := expectedFs r (done ++ [h]),
                  extracted := st.extracted ++ [h.name],
                  written := st.written ++ [r ++ h.name] }
        rfl
        (fun x hx => hreg x (by simp [hx]))
        (fun x hx => hne x (by simp [hx]))
        ?_ hpw.2]
    · simp [List.append_assoc]
    · intro x hx h' hm
      rcases List.mem_append.mp hm with hm' | hm'
      · exact hcross x (by simp [hx]) h' hm'
      · rw [List.mem_singleton.mp hm']
        exact (hpw.1 x.name (List.mem_map.mpr ⟨x, hx, rfl⟩)).symm

theorem cleanupStale_noop {rm : Path → RmOracle} {r : Path} {st : RestoreState}
    {u : List Path} (h : ∀ p ∈ u, p ∈ st.extracted) :
    cleanupStale rm r st u = st := by
  induction u with
  | nil => rfl
  | cons p ps ih =>
    have hp := h p (by simp)
    by_cases hp0 : p = []
    · rw [cleanupStale, if_pos hp0]
      exact ih (fun q hq => h q (by simp [hq]))
    · rw [cleanupStale, if_neg hp0, if_pos hp]
      exact ih (fun q hq => h q (by simp [hq]))

theorem expectedFs_file_iff {r : Path} {es : List Header} {p : Path} :
    (∃ c m t, expectedFs r es (r ++ p) = some (FsObj.file c m t))
      ↔ p ∈ es.map Header.name := by
  constructor
  · rintro ⟨c, m, t, hv⟩
    cases hfd : es.find? (fun h' => decide (r ++ h'.name = r ++ p)) with
    | none =>
      rw [expectedFs_of_find_none hfd] at hv
      split at hv <;> simp at hv
    | some h' =>
      have hmem := List.mem_of_find?_eq_some hfd
      have hpred : r ++ h'.name = r ++ p := by
        have := List.find?_some hfd
        simpa using this
      exact List.mem_map.mpr ⟨h', hmem, append_inj_right hpred⟩
  · intro hp
    obtain ⟨h', hmem, rfl⟩ := List.mem_map.mp hp
    cases hfd : es.find? (fun x => decide (r ++ x.name = r ++ h'.name)) with
    | none =>
      rw [List.find?_eq_none] at hfd
      have := hfd h' hmem
      simp at this
    | some hB =>
      exact ⟨hB.content, hB.mode, hB.mtime, by simp only [expectedFs, hfd]⟩

theorem expectedFs_at_mem {r : Path} {es : List Header} {h : Header}
    (hmem : h ∈ es)
    (hinj : ∀ a ∈ es, ∀ b ∈ es, a.name = b.name → a = b) :
    expectedFs r es (r ++ h.name) = some (FsObj.file h.content h.mode h.mtime) := by
  cases hfd : es.find? (fun x => decide (r ++ x.name = r ++ h.name)) with
  | none =>
    rw [List.find?_eq_none] at hfd
    have := hfd h hmem
    simp at this
  | some hB =>
    have hmemB := List.mem_of_find?_eq_some hfd
    have hname : hB.name = h.name := by
      refine append_inj_right (r := r) ?_
      have := List.find?_some hfd
      simpa using this
    have heq : hB = h := hinj hB hmemB h hmem hname
    rw [heq] at hfd
    simp only [expectedFs, hfd]

/-! ## Every header the enumeration emits is a regular-file header -/

theorem processLsEntries_reg {O : GOracle} {src : Fs} {rd : RootDir} :
    ∀ es : List Path, ∀ h ∈ (processLsEntries O src rd es).1,
      h.typeflag = TypeFlag.reg := by
  intro es
  induction es with
  | nil =>
    intro h hh
    simp [processLsEntries] at hh
  | cons e es ih =>
    intro h hh
    rw [processLsEntries] at hh
    split at hh
    · exact ih h hh
    · split at hh
      · exact ih h hh
      · split at hh
        · dsimp only at hh
          exact ih h hh
        · exact ih h hh
      · dsimp only at hh
        rcases List.mem_cons.mp hh with h0 | h0
        · rw [h0]
        · exact ih h h0

theorem walkHeaders_reg {src : Fs} {rd : RootDir} :
    ∀ (ws : List Path) (hs : List Header), walkHeaders src rd ws = some hs →
      ∀ h ∈ hs, h.typeflag = TypeFlag.reg := by
  intro ws
  induction ws with
  | nil =>
    intro hs hws h hh
    rw [walkHeaders, Option.some.injEq] at hws
    rw [← hws] at hh
    simp at hh
  | cons w ws ih =>
    intro hs hws h hh
    rw [walkHeaders] at hws
    split at hws
    · split at hws
      · exact absurd hws (by simp)
      · rename_i hs' heq
        rw [Option.some.injEq] at hws
        rw [← hws] at hh
        rcases List.mem_cons.mp hh with h0 | h0
        · rw [h0]
        · exact ih hs' heq h h0
    · exact absurd hws (by simp)

theorem addEntry_reg {O : GOracle} {src : Fs} :
    ∀ (fuel : Nat) (roots : List RootDir) (hs : List Header),
      addEntry O src fuel roots = some hs →
      ∀ h ∈ hs, h.typeflag = TypeFlag.reg := by
  intro fuel
  induction fuel with
  | zero =>
    intro roots hs ha h hh
    cases roots with
    | nil =>
      simp only [addEntry, Option.some.injEq] at ha
      rw [← ha] at hh
      simp at hh
    | cons rd rest => simp [addEntry] at ha
  | succ fuel ih =>
    intro roots hs ha h hh
    cases roots with
    | nil =>
      simp only [addEntry, Option.some.injEq] at ha
      rw [← ha] at hh
      simp at hh
    | cons rd rest =>
      rw [addEntry] at ha
      split at ha
      · exact absurd ha (by simp)
      · split at ha
        · exact absurd ha (by simp)
        · rename_i ws hws
          split at ha
          · exact absurd ha (by simp)
          · rename_i gs hgs
            split at ha
            · exact absurd ha (by simp)
            · rename_i hs2 hrec
              rw [Option.some.injEq] at ha
              rw [← ha] at hh
              rcases List.mem_append.mp hh with hh' | hh'
              · rcases List.mem_append.mp hh' with hhB | hhB
                · exact processLsEntries_reg _ h hhB
                · exact walkHeaders_reg ws gs hgs h hhB
              · exact ih _ hs2 hrec h hh'

theorem restoreGitRepo_fresh {RO : ROracle} {now : Nat} {r : Path}
    {entries : List Header} {u : List Path}
    (hreg : ∀ h ∈ entries, h.typeflag = TypeFlag.reg)
    (hne : ∀ h ∈ entries, h.name ≠ [])
    (hpw : (entries.map Header.name).Pairwise NP)
    (hu : RO.untracked (expectedFs r entries) = some u)
    (husnd : ∀ p ∈ u, ∃ c m t, expectedFs r entries (r ++ p) = some (FsObj.file c m t)) :
    restoreGitRepo RO now r entries Fs.empty = Except.ok
      (RestoreState.mk (expectedFs r entries) (entries.map Header.name)
        (entries.map (fun h => r ++ h.name)) [] []) := by
  have hnofile : hasFileAlong Fs.empty r = false := by
    rw [hasFileAlong_false_iff]
    intro q _
    simp [isFileAt, Fs.empty]
  have hmk : osMkdirAll Fs.empty r = some (addDirs Fs.empty r) := by
    simp [osMkdirAll, hnofile]
  have hfs0 : (RestoreState.mk (addDirs Fs.empty r) [] [] [] []).fs = expectedFs r [] := by
    dsimp only
    rw [expectedFs_nil]
  have hrun := @restoreEntries_fresh RO now r entries []
      (RestoreState.mk (addDirs Fs.empty r) [] [] [] []) hfs0 hreg hne
      (fun h _ h' hm => absurd hm (by simp)) hpw
  simp only [List.nil_append] at hrun
  have hsub : ∀ p ∈ u, p ∈ entries.map Header.name := by
    intro p hp
    exact expectedFs_file_iff.mp (husnd p hp)
  rw [restoreGitRepo, hmk]
  dsimp only
  rw [hrun]
  dsimp only
  rw [hu]
  dsimp only
  rw [cleanupStale_noop hsub]

/-- C1 amended: for archives whose entry paths are nonempty and pairwise
non-nested — the invariant a correct enumeration would guarantee, but
which the doubled submodule prefix of `main.go` 113 violates on nested
submodules (see the counterexample) — archiving and then restoring the
entry stream into an empty target directory reproduces exactly the
enumerated regular-file paths, each with the enumerated content and mode
bits. The further hypothesis is a sound untracked-files query. -/
theorem c1_round_trip
    (O : GOracle) (src : Fs) (fuel : Nat) (repoSrc : Path) (entries : List Header)
    (RO : ROracle) (now : Nat) (r : Path)
    (henum : addEntry O src fuel [RootDir.mk [] repoSrc] = some entries)
    (hpw : (entries.map Header.name).Pairwise NP)
    (hne : ∀ h ∈ entries, h.name ≠ [])
    (hq : UntrackedSound RO r) :
    ∃ st, restoreGitRepo RO now r entries Fs.empty = Except.ok st
      ∧ (∀ h ∈ entries, st.fs (r ++ h.name)
            = some (FsObj.file h.content h.mode h.mtime))
      ∧ (∀ p : Path, (∃ c m t, st.fs (r ++ p) = some (FsObj.file c m t))
            ↔ p ∈ entries.map Header.name) := by
  have hreg : ∀ h ∈ entries, h.typeflag = TypeFlag.reg := addEntry_reg fuel _ entries henum
  obtain ⟨u, hu, husnd⟩ := hq (expectedFs r entries)
  refine ⟨_, restoreGitRepo_fresh hreg hne hpw hu husnd, ?_, ?_⟩
  · intro h hmem
    have hnodup : (entries.map Header.name).Nodup := hpw.imp (fun hab => hab.ne)
    exact expectedFs_at_mem hmem (fun a ha b hb hab => List.inj_on_of_nodup_map hnodup ha hb hab)
  · intro p
    exact expectedFs_file_iff

/-! ## Facts about a successful restore over an arbitrary initial tree -/

theorem GoodFs.anc_dir {fs : Fs} (hg : GoodFs fs) {t : Path} (ho : fs t ≠ none) :
    ∀ p, p ≠ [] → p <+: t → p ≠ t → fs p = some FsObj.dir :=
  fun p h1 h2 h3 => hg.1 p t h1 h2 h3 ho

theorem GoodFs.desc_none {fs : Fs} (hg : GoodFs fs) {t : Path} (ht : t ≠ [])
    (h0 : fs t = none) : ∀ q, t <+: q → t ≠ q → fs q = none := by
  intro q hq hne
  by_contra hq0
  have := hg.1 t q ht hq hne hq0
  rw [h0] at this
  exact absurd this (by simp)

theorem GoodFs.root_not_file {fs : Fs} (hg : GoodFs fs) : isFileAt fs [] = false := by
  rcases hg.2 with h0 | h0 <;> simp [isFileAt, h0]

theorem osRemoveAll_self {fs : Fs} {p : Path} : osRemoveAll fs p p = none := by
  simp [osRemoveAll]

theorem osRemoveAll_outside {fs : Fs} {p q : Path} (h : ¬ p <+: q) :
    osRemoveAll fs p q = fs q := by
  simp [osRemoveAll, h]

theorem osRemoveAll_within {fs : Fs} {p q : Path} (h : p <+: q) :
    osRemoveAll fs p q = none := by
  simp [osRemoveAll, h]

theorem addDirs_of_some {fs : Fs} {d q : Path} {o : FsObj} (h : fs q = some o) :
    addDirs fs d q = some o := by
  simp [addDirs, h]

theorem addDirs_of_none_outside {fs : Fs} {d q : Path} (h : fs q = none)
    (hq : ¬ q <+: d) : addDirs fs d q = none := by
  simp [addDirs, h, hq]

theorem fsUpdate_self {fs : Fs} {p : Path} {o : FsObj} : fsUpdate fs p o p = some o := by
  simp [fsUpdate]

theorem fsUpdate_other {fs : Fs} {p q : Path} {o : FsObj} (h : q ≠ p) :
    fsUpdate fs p o q = fs q := by
  simp [fsUpdate, h]

theorem writeEntry_error {rm : Path → RmOracle} {now : Nat} {target : Path}
    {h : Header} {st : RestoreState} {e : RErr}
    (hx : extractFile rm now target h st.fs = Except.error e) :
    writeEntry rm now target h st = Except.error e := by
  rw [writeEntry, hx]

theorem extractFileWrite_mkdir_error {now : Nat} {target : Path} {h : Header} {fs : Fs}
    (hno : hasFileAlong fs target.dropLast = true) :
    extractFileWrite now target h fs = Except.error RErr.mkdirError := by
  simp [extractFileWrite, osMkdirAll, hno]

theorem extractFile_parent_rm_error {rm : Path → RmOracle} {now : Nat} {target : Path}
    {h : Header} {fs : Fs} {pc : List Nat} {pm pt : Nat}
    (hpd : fs target.dropLast = some (FsObj.file pc pm pt))
    (hrmd : (removeExistingPath (rm target.dropLast)).1 = false) :
    extractFile rm now target h fs = Except.error RErr.dirFileRemoveError := by
  simp [extractFile, hpd, hrmd]

theorem writeEntry_parent_file {rm : Path → RmOracle} {now : Nat} {target : Path}
    {h : Header} {st : RestoreState} {pc : List Nat} {pm pt : Nat}
    (hg : GoodFs st.fs)
    (hpd : st.fs target.dropLast = some (FsObj.file pc pm pt))
    (hrmd : (removeExistingPath (rm target.dropLast)).1 = true)
    (htne : target ≠ []) :
    writeEntry rm now target h st = Except.ok
      { st with
        fs := fsUpdate (addDirs (osRemoveAll st.fs target.dropLast) target.dropLast)
          target (FsObj.file h.content h.mode h.mtime),
        written := st.written ++ [target] } := by
  have hdne : target.dropLast ≠ [] := by
    intro h0
    have := hg.root_not_file
    rw [← h0] at this
    rw [isFileAt, hpd] at this
    exact absurd this (by simp)
  have hno : hasFileAlong (osRemoveAll st.fs target.dropLast) target.dropLast = false := by
    rw [hasFileAlong_false_iff]
    intro q hq
    by_cases hqd : q = target.dropLast
    · rw [isFileAt, hqd, osRemoveAll_self]
    · have hanc := hg.anc_dir (t := target.dropLast) (by rw [hpd]; simp) q
      by_cases hq0 : q = []
      · rw [isFileAt, hq0, osRemoveAll_outside
          (fun hc : target.dropLast <+: [] => hdne (List.prefix_nil.mp hc))]
        have := hg.root_not_file
        rw [isFileAt] at this
        exact this
      · have hdir := hanc hq0 hq hqd
        rw [isFileAt]
        by_cases hp : target.dropLast <+: q
        · rw [osRemoveAll_within hp]
        · rw [osRemoveAll_outside hp, hdir]
  have htgt : addDirs (osRemoveAll st.fs target.dropLast) target.dropLast target
      ≠ some FsObj.dir := by
    rw [addDirs_of_none_outside
      (osRemoveAll_within (dropLast_pre target))
      (not_self_prefix_dropLast htne)]
    simp
  rw [writeEntry]
  rw [show extractFile rm now target h st.fs
      = extractFileWrite now target h (osRemoveAll st.fs target.dropLast) from by
    simp [extractFile, hpd, hrmd]]
  rw [extractFileWrite_ok hno htgt]
  dsimp only
  rw [chmod_chtimes_update]

theorem length_lt_of_strict_pre {p q : Path} (h : p <+: q) (hne : p ≠ q) :
    p.length < q.length := by
  rcases h with ⟨s, rfl⟩
  have hs : s ≠ [] := fun h0 => hne (by simp [h0])
  have : 0 < s.length := List.length_pos.mpr hs
  simp only [List.length_append]
  omega

theorem osRemoveAll_none_of_none {fs : Fs} {p q : Path} (h : fs q = none) :
    osRemoveAll fs p q = none := by
  by_cases hp : p <+: q
  · exact osRemoveAll_within hp
  · rw [osRemoveAll_outside hp, h]

theorem addDirs_of_none_within {fs : Fs} {d q : Path} (h : fs q = none)
    (hq : q ≠ []) (hqd : q <+: d) : addDirs fs d q = some FsObj.dir := by
  simp [addDirs, h, hq, hqd]

/-- After a fresh write with no conflicting object: the new filesystem is
still well formed, the base directories survive, and every unrelated
existing file is untouched. -/
theorem write_clean_facts {fs : Fs} {r : Path} {nm : Path} {c : List Nat} {m w : Nat}
    (hg : GoodFs fs) (hb : BaseDirs r fs) (hne : nm ≠ [])
    (h0 : fs (r ++ nm) = none)
    (hno : hasFileAlong fs (r ++ nm).dropLast = false) :
    GoodFs (fsUpdate (addDirs fs (r ++ nm).dropLast) (r ++ nm) (FsObj.file c m w))
    ∧ BaseDirs r (fsUpdate (addDirs fs (r ++ nm).dropLast) (r ++ nm) (FsObj.file c m w))
    ∧ (∀ x : Path, x ≠ nm →
        (∃ c2 m2 t2, fs (r ++ x) = some (FsObj.file c2 m2 t2)) →
        fsUpdate (addDirs fs (r ++ nm).dropLast) (r ++ nm) (FsObj.file c m w) (r ++ x)
          = fs (r ++ x)) := by
  have htne : r ++ nm ≠ [] := append_ne_nil_right hne
  refine ⟨?_, ?_, ?_⟩
  · refine goodFs_fsUpdate_file (goodFs_addDirs hg hno) htne ?_ ?_
    · intro p hp0 hpt hpne
      have hpd : p <+: (r ++ nm).dropLast := prefix_dropLast_of_strict hpt hpne
      cases hv : fs p with
      | some o =>
        cases o with
        | file c2 m2 t2 =>
          have := hasFileAlong_false_iff.mp hno p hpd
          rw [isFileAt, hv] at this
          exact absurd this (by simp)
        | dir => exact addDirs_of_some hv
      | none => exact addDirs_of_none_within hv hp0 hpd
    · intro q hq hqne
      have hqn : fs q = none := hg.desc_none htne h0 q hq hqne
      refine addDirs_of_none_outside hqn ?_
      intro hc
      exact not_self_prefix_dropLast htne (hq.trans hc)
  · intro q hq hqr
    have hdq := hb q hq hqr
    have hqt : q ≠ r ++ nm := by
      intro h1
      exact not_append_prefix_self hne (h1 ▸ hqr)
    rw [fsUpdate_other hqt, addDirs_of_some hdq]
  · intro x hx ⟨c2, m2, t2, hv⟩
    have hyt : r ++ x ≠ r ++ nm := fun he => hx (append_inj_right he)
    rw [fsUpdate_other hyt, addDirs_of_some hv, hv]

/-- Overwrite path: the object at the target is removed and the file is
written; well-formedness, base directories, and unrelated files survive. -/
theorem write_over_facts {fs : Fs} {r : Path} {nm : Path} {c : List Nat} {m w : Nat}
    (hg : GoodFs fs) (hb : BaseDirs r fs) (hne : nm ≠ [])
    (ho : fs (r ++ nm) ≠ none) :
    hasFileAlong (osRemoveAll fs (r ++ nm)) (r ++ nm).dropLast = false
    ∧ GoodFs (fsUpdate (addDirs (osRemoveAll fs (r ++ nm)) (r ++ nm).dropLast)
        (r ++ nm) (FsObj.file c m w))
    ∧ BaseDirs r (fsUpdate (addDirs (osRemoveAll fs (r ++ nm)) (r ++ nm).dropLast)
        (r ++ nm) (FsObj.file c m w))
    ∧ (∀ x : Path, NP x nm →
        (∃ c2 m2 t2, fs (r ++ x) = some (FsObj.file c2 m2 t2)) →
        fsUpdate (addDirs (osRemoveAll fs (r ++ nm)) (r ++ nm).dropLast)
          (r ++ nm) (FsObj.file c m w) (r ++ x) = fs (r ++ x)) := by
  have htne : r ++ nm ≠ [] := append_ne_nil_right hne
  have hanc := hg.anc_dir (t := r ++ nm) ho
  have hno : hasFileAlong (osRemoveAll fs (r ++ nm)) (r ++ nm).dropLast = false := by
    rw [hasFileAlong_false_iff]
    intro q hq
    obtain ⟨hq1, hq2⟩ := strict_of_prefix_dropLast htne hq
    by_cases hq0 : q = []
    · rw [isFileAt, hq0, osRemoveAll_outside
        (fun hc : r ++ nm <+: [] => htne (List.prefix_nil.mp hc))]
      have := hg.root_not_file
      rw [isFileAt] at this
      exact this
    · have hdir := hanc q hq0 hq1 hq2
      rw [isFileAt]
      by_cases hp : (r ++ nm) <+: q
      · rw [osRemoveAll_within hp]
      · rw [osRemoveAll_outside hp, hdir]
  refine ⟨hno, ?_, ?_, ?_⟩
  · refine goodFs_fsUpdate_file (goodFs_addDirs (goodFs_osRemoveAll hg _) hno) htne ?_ ?_
    · intro p hp0 hpt hpne
      have hpd : p <+: (r ++ nm).dropLast := prefix_dropLast_of_strict hpt hpne
      have hlt := length_lt_of_strict_pre hpt hpne
      have hnp : ¬ (r ++ nm <+: p) := fun hc => by
        have := hc.length_le
        omega
      exact addDirs_of_some (by rw [osRemoveAll_outside hnp, hanc p hp0 hpt hpne])
    · intro q hq hqne
      refine addDirs_of_none_outside (osRemoveAll_within hq) ?_
      intro hc
      exact not_self_prefix_dropLast htne (hq.trans hc)
  · intro q hq hqr
    have hdq := hb q hq hqr
    have hnp : ¬ (r ++ nm <+: q) :=
      fun hc => not_append_prefix_self hne (hc.trans hqr)
    have hqt : q ≠ r ++ nm := fun h1 => hnp (h1 ▸ List.prefix_rfl)
    rw [fsUpdate_other hqt, addDirs_of_some (by rw [osRemoveAll_outside hnp, hdq])]
  · intro x hnp ⟨c2, m2, t2, hv⟩
    have hyt : r ++ x ≠ r ++ nm := fun he => hnp.ne (append_inj_right he)
    have hpre : ¬ (r ++ nm <+: r ++ x) := fun hc => hnp.2 (append_prefix_append.mp hc)
    rw [fsUpdate_other hyt, addDirs_of_some (by rw [osRemoveAll_outside hpre, hv])]
    exact hv.symm

/-- Parent-path-is-a-file path: the stale file at the parent path is
removed, the directory chain recreated, the file written. -/
theorem write_parent_facts {fs : Fs} {r : Path} {nm : Path} {c : List Nat} {m w : Nat}
    {pc : List Nat} {pm pt : Nat}
    (hg : GoodFs fs) (hb : BaseDirs r fs) (hne : nm ≠ [])
    (h0 : fs (r ++ nm) = none)
    (hpd : fs (r ++ nm).dropLast = some (FsObj.file pc pm pt)) :
    GoodFs (fsUpdate (addDirs (osRemoveAll fs (r ++ nm).dropLast) (r ++ nm).dropLast)
        (r ++ nm) (FsObj.file c m w))
    ∧ BaseDirs r (fsUpdate (addDirs (osRemoveAll fs (r ++ nm).dropLast)
        (r ++ nm).dropLast) (r ++ nm) (FsObj.file c m w))
    ∧ (∀ x : Path, NP x nm →
        (∃ c2 m2 t2, fs (r ++ x) = some (FsObj.file c2 m2 t2)) →
        fsUpdate (addDirs (osRemoveAll fs (r ++ nm).dropLast) (r ++ nm).dropLast)
          (r ++ nm) (FsObj.file c m w) (r ++ x) = fs (r ++ x)) := by
  have htne : r ++ nm ≠ [] := append_ne_nil_right hne
  have hdne : (r ++ nm).dropLast ≠ [] := by
    intro hd0
    have := hg.root_not_file
    rw [← hd0, isFileAt, hpd] at this
    exact absurd this (by simp)
  have hdanc := hg.anc_dir (t := (r ++ nm).dropLast) (by rw [hpd]; simp)
  have hnd : ∀ q, ¬ ((r ++ nm).dropLast <+: q) →
      osRemoveAll fs (r ++ nm).dropLast q = fs q := fun q hq =>
    osRemoveAll_outside hq
  refine ⟨?_, ?_, ?_⟩
  · refine goodFs_fsUpdate_file
      (goodFs_addDirs (goodFs_osRemoveAll hg _) (hasFileAlong_false_iff.mpr ?_)) htne ?_ ?_
    · intro q hq
      by_cases hqd : q = (r ++ nm).dropLast
      · rw [isFileAt, hqd, osRemoveAll_self]
      · by_cases hq0 : q = []
        · rw [isFileAt, hq0, osRemoveAll_outside
            (fun hc : (r ++ nm).dropLast <+: [] => hdne (List.prefix_nil.mp hc))]
          have := hg.root_not_file
          rw [isFileAt] at this
          exact this
        · have hdir := hdanc q hq0 hq hqd
          rw [isFileAt]
          by_cases hp : (r ++ nm).dropLast <+: q
          · rw [osRemoveAll_within hp]
          · rw [osRemoveAll_outside hp, hdir]
    · intro p hp0 hpt hpne
      have hpd2 : p <+: (r ++ nm).dropLast := prefix_dropLast_of_strict hpt hpne
      by_cases hpd3 : p = (r ++ nm).dropLast
      · exact addDirs_of_none_within (hpd3 ▸ osRemoveAll_self) hp0 hpd2
      · have hlt := length_lt_of_strict_pre hpd2 hpd3
        have hnp : ¬ ((r ++ nm).dropLast <+: p) := fun hc => by
          have := hc.length_le
          omega
        exact addDirs_of_some (by rw [hnd p hnp, hdanc p hp0 hpd2 hpd3])
    · intro q hq hqne
      have hqn : fs q = none := hg.desc_none htne h0 q hq hqne
      refine addDirs_of_none_outside (osRemoveAll_none_of_none hqn) ?_
      intro hc
      exact not_self_prefix_dropLast htne (hq.trans hc)
  · intro q hq hqr
    have hdq := hb q hq hqr
    have hnp : ¬ ((r ++ nm).dropLast <+: q) := by
      intro hc
      have hdr : (r ++ nm).dropLast <+: r := hc.trans hqr
      by_cases hnm0 : nm.dropLast = []
      · rw [dropLast_append_ne hne, hnm0, List.append_nil] at hpd hdr hc
        have hqeq : q = r := by
          have h1 := length_lt_of_strict_pre hqr
          have h2 := hc.length_le
          rcases List.prefix_iff_eq_take.mp hqr with h3
          by_contra hqr2
          have := h1 hqr2
          omega
        rw [hqeq, hpd] at hdq
        exact absurd hdq (by simp)
      · rw [dropLast_append_ne hne] at hdr
        exact not_append_prefix_self hnm0 hdr
    have hqt : q ≠ r ++ nm := fun h1 => not_append_prefix_self hne (h1 ▸ hqr)
    rw [fsUpdate_other hqt, addDirs_of_some (by rw [hnd q hnp, hdq])]
  · intro x hnp ⟨c2, m2, t2, hv⟩
    have hyt : r ++ x ≠ r ++ nm := fun he => hnp.ne (append_inj_right he)
    have hpre : ¬ ((r ++ nm).dropLast <+: r ++ x) := by
      intro hc
      by_cases hdy : (r ++ nm).dropLast = r ++ x
      · rw [dropLast_append_ne hne] at hdy
        have hx : x = nm.dropLast := (append_inj_right hdy).symm
        exact hnp.1 (hx ▸ dropLast_pre nm)
      · have := hg.anc_dir (t := r ++ x) (by rw [hv]; simp) (r ++ nm).dropLast hdne hc hdy
        rw [hpd] at this
        exact absurd this (by simp)
    rw [fsUpdate_other hyt, addDirs_of_some (by rw [hnd _ hpre, hv])]
    exact hv.symm

/-- What one successful restore-loop iteration guarantees, over an
arbitrary well-formed target: well-formedness and the base directories
survive, the entry's path is recorded, a regular file with the header's
rounded mtime sits at the target afterwards, at most the target path is
reported written, and files at unrelated paths are untouched. -/
theorem restoreEntry_facts {RO : ROracle} {now : Nat} {r : Path}
    {st st' : RestoreState} {h : Header}
    (hg : GoodFs st.fs) (hb : BaseDirs r st.fs)
    (hreg : h.typeflag = TypeFlag.reg) (hne : h.name ≠ [])
    (hrun : restoreEntry RO now r st h = Except.ok st') :
    GoodFs st'.fs ∧ BaseDirs r st'.fs
    ∧ st'.extracted = st.extracted ++ [h.name]
    ∧ FileRoundAt st'.fs (r ++ h.name) h.mtime
    ∧ (st'.written = st.written ∨ st'.written = st.written ++ [r ++ h.name])
    ∧ (∀ x : Path, NP x h.name →
        (∃ c2 m2 t2, st.fs (r ++ x) = some (FsObj.file c2 m2 t2)) →
        st'.fs (r ++ x) = st.fs (r ++ x)) := by
  have htne : r ++ h.name ≠ [] := append_ne_nil_right hne
  rw [restoreEntry, if_neg (show ¬ h.typeflag ≠ TypeFlag.reg from fun hc => hc hreg)] at hrun
  dsimp only at hrun
  cases hst : st.fs (r ++ h.name) with
  | some o =>
    rw [hst] at hrun
    dsimp only at hrun
    by_cases hskip : skipCheck o h = true
    · rw [if_pos hskip] at hrun
      cases hrun
      refine ⟨hg, hb, rfl, ?_, Or.inl rfl, fun x _ _ => rfl⟩
      cases o with
      | file c2 m2 t2 =>
        simp only [skipCheck, Bool.and_eq_true, decide_eq_true_eq] at hskip
        exact ⟨c2, m2, t2, hst, hskip.1⟩
      | dir => simp [skipCheck] at hskip
    · rw [if_neg hskip] at hrun
      by_cases hrm : (removeExistingPath (RO.rm (r ++ h.name))).1 = true
      · rw [if_pos hrm] at hrun
        obtain ⟨hno, hgood, hbase, hframe⟩ :=
          write_over_facts (c := h.content) (m := h.mode) (w := h.mtime)
            hg hb hne (by rw [hst]; simp)
        rw [@writeEntry_clean RO.rm now (r ++ h.name) h { st with fs := osRemoveAll st.fs (r ++ h.name), extracted := st.extracted ++ [h.name] } hno ?htgt] at hrun
        case htgt =>
          rw [show ({ st with fs := osRemoveAll st.fs (r ++ h.name), extracted := st.extracted ++ [h.name] } : RestoreState).fs = osRemoveAll st.fs (r ++ h.name) from rfl]
          rw [addDirs_of_none_outside osRemoveAll_self (not_self_prefix_dropLast htne)]
          simp
        cases hrun
        refine ⟨hgood, hbase, rfl, ?_, Or.inr rfl, hframe⟩
        exact ⟨h.content, h.mode, h.mtime, fsUpdate_self, rfl⟩
      · rw [if_neg hrm] at hrun
        exact absurd hrun (by simp)
  | none =>
    rw [hst] at hrun
    dsimp only at hrun
    by_cases hpf : ∃ pc pm pt, st.fs (r ++ h.name).dropLast = some (FsObj.file pc pm pt)
    · obtain ⟨pc, pm, pt, hpd⟩ := hpf
      by_cases hrmd : (removeExistingPath (RO.rm (r ++ h.name).dropLast)).1 = true
      · rw [@writeEntry_parent_file RO.rm now (r ++ h.name) h { st with extracted := st.extracted ++ [h.name] } _ _ _ hg hpd hrmd htne] at hrun
        obtain ⟨hgood, hbase, hframe⟩ :=
          write_parent_facts (c := h.content) (m := h.mode) (w := h.mtime)
            hg hb hne hst hpd
        cases hrun
        refine ⟨hgood, hbase, rfl, ?_, Or.inr rfl, hframe⟩
        exact ⟨h.content, h.mode, h.mtime, fsUpdate_self, rfl⟩
      · have hrmd' : (removeExistingPath (RO.rm (r ++ h.name).dropLast)).1 = false := by
          simpa using hrmd
        rw [@writeEntry_error RO.rm now (r ++ h.name) h { st with extracted := st.extracted ++ [h.name] } _
          (extractFile_parent_rm_error hpd hrmd')] at hrun
        exact absurd hrun (by simp)
    · have hdnotfile : isFileAt st.fs (r ++ h.name).dropLast = false := by
        rw [isFileAt_false_iff]
        cases hv : st.fs (r ++ h.name).dropLast with
        | none => exact Or.inl rfl
        | some o2 =>
          cases o2 with
          | file pc pm pt => exact absurd ⟨pc, pm, pt, hv⟩ hpf
          | dir => exact Or.inr rfl
      cases hno : hasFileAlong st.fs (r ++ h.name).dropLast with
      | true =>
        have hx : extractFile RO.rm now (r ++ h.name) h st.fs
            = Except.error RErr.mkdirError := by
          rw [extractFile_no_parent_file hdnotfile, extractFileWrite_mkdir_error hno]
        rw [@writeEntry_error RO.rm now (r ++ h.name) h { st with extracted := st.extracted ++ [h.name] } _ hx] at hrun
        exact absurd hrun (by simp)
      | false =>
        obtain ⟨hgood, hbase, hframe⟩ :=
          write_clean_facts (c := h.content) (m := h.mode) (w := h.mtime)
            hg hb hne hst hno
        rw [@writeEntry_clean RO.rm now (r ++ h.name) h { st with extracted := st.extracted ++ [h.name] }
          hno ?htgt2] at hrun
        case htgt2 =>
          rw [show ({ st with extracted := st.extracted ++ [h.name] } : RestoreState).fs
            = st.fs from rfl]
          rw [addDirs_of_none_outside hst (not_self_prefix_dropLast htne)]
          simp
        cases hrun
        refine ⟨hgood, hbase, rfl, ?_, Or.inr rfl, ?_⟩
        · exact ⟨h.content, h.mode, h.mtime, fsUpdate_self, rfl⟩
        · intro x hnp hex
          exact hframe x hnp.ne hex

/-- Folding `restoreEntry_facts` over a whole entry stream. -/
theorem restoreEntries_facts {RO : ROracle} {now : Nat} {r : Path} (es : List Header) :
    ∀ st stA : RestoreState,
    GoodFs st.fs → BaseDirs r st.fs →
    (∀ h ∈ es, h.typeflag = TypeFlag.reg) →
    (∀ h ∈ es, h.name ≠ []) →
    (es.map Header.name).Pairwise NP →
    restoreEntries RO now r st es = Except.ok stA →
    GoodFs stA.fs ∧ BaseDirs r stA.fs
    ∧ stA.extracted = st.extracted ++ es.map Header.name
    ∧ (∀ h ∈ es, FileRoundAt stA.fs (r ++ h.name) h.mtime)
    ∧ (∀ w ∈ stA.written, w ∈ st.written ∨ ∃ h ∈ es, w = r ++ h.name)
    ∧ (∀ x : Path, (∀ h ∈ es, NP x h.name) →
        (∃ c2 m2 t2, st.fs (r ++ x) = some (FsObj.file c2 m2 t2)) →
        stA.fs (r ++ x) = st.fs (r ++ x)) := by
  induction es with
  | nil =>
    intro st stA hg hb _ _ _ hrun
    rw [restoreEntries] at hrun
    cases hrun
    exact ⟨hg, hb, by simp, by simp, fun w hw => Or.inl hw, fun x _ _ => rfl⟩
  | cons h es ih =>
    intro st stA hg hb hreg hne hpw hrun
    rw [restoreEntries] at hrun
    cases hstep : restoreEntry RO now r st h with
    | error e =>
      rw [hstep] at hrun
      exact absurd hrun (by simp)
    | ok st1 =>
      rw [hstep] at hrun
      dsimp only at hrun
      obtain ⟨hg1, hb1, hex1, hfile1, hw1, hfr1⟩ :=
        restoreEntry_facts hg hb (hreg h (by simp)) (hne h (by simp)) hstep
      simp only [List.map_cons, List.pairwise_cons] at hpw
      obtain ⟨hgA, hbA, hexA, hfileA, hwA, hfrA⟩ :=
        ih st1 stA hg1 hb1 (fun x hx => hreg x (by simp [hx]))
          (fun x hx => hne x (by simp [hx])) hpw.2 hrun
      have hnp_rest : ∀ h' ∈ es, NP h.name h'.name := fun h' hm =>
        hpw.1 h'.name (List.mem_map.mpr ⟨h', hm, rfl⟩)
      refine ⟨hgA, hbA, ?_, ?_, ?_, ?_⟩
      · rw [hexA, hex1, List.append_assoc]
        simp
      · intro h' hm
        rcases List.mem_cons.mp hm with h0 | h0
        · subst h0
          obtain ⟨c2, m2, t2, hv, hrt⟩ := hfile1
          have heq := hfrA h'.name hnp_rest ⟨c2, m2, t2, hv⟩
          exact ⟨c2, m2, t2, by rw [heq, hv], hrt⟩
        · exact hfileA h' h0
      · intro w hw
        rcases hwA w hw with hw' | ⟨h', hm', he'⟩
        · rcases hw1 with h1 | h1
          · rw [h1] at hw'
            exact Or.inl hw'
          · rw [h1] at hw'
            rcases List.mem_append.mp hw' with h2 | h2
            · exact Or.inl h2
            · exact Or.inr ⟨h, by simp, List.mem_singleton.mp h2⟩
        · exact Or.inr ⟨h', by simp [hm'], he'⟩
      · intro x hx hex
        have h1 := hfr1 x (hx h (by simp)) hex
        obtain ⟨c2, m2, t2, hv⟩ := hex
        have h2 := hfrA x (fun h' hm => hx h' (by simp [hm])) ⟨c2, m2, t2, by rw [h1, hv]⟩
        rw [h2, h1]

/-- The reconciliation loop: state bookkeeping is unchanged, only
untracked-reported non-extracted paths are removed, and any path none of
the removal roots reaches is untouched. -/
theorem cleanupStale_facts {rm : Path → RmOracle} {r : Path} (u : List Path) :
    ∀ st : RestoreState,
    GoodFs st.fs → BaseDirs r st.fs →
    GoodFs (cleanupStale rm r st u).fs
    ∧ BaseDirs r (cleanupStale rm r st u).fs
    ∧ (cleanupStale rm r st u).extracted = st.extracted
    ∧ (cleanupStale rm r st u).written = st.written
    ∧ (cleanupStale rm r st u).skipped = st.skipped
    ∧ (∀ q ∈ (cleanupStale rm r st u).removed,
        q ∈ st.removed ∨ ∃ p ∈ u, p ∉ st.extracted ∧ p ≠ [] ∧ q = r ++ p)
    ∧ (∀ x : Path, (∀ p ∈ u, p ∉ st.extracted → p ≠ [] → ¬ ((r ++ p) <+: (r ++ x))) →
        (cleanupStale rm r st u).fs (r ++ x) = st.fs (r ++ x)) := by
  induction u with
  | nil =>
    intro st hg hb
    exact ⟨hg, hb, rfl, rfl, rfl, fun q hq => Or.inl hq, fun x _ => rfl⟩
  | cons p ps ih =>
    intro st hg hb
    by_cases hp0 : p = []
    · rw [cleanupStale, if_pos hp0]
      obtain ⟨a, b, c, d, e, f, g⟩ := ih st hg hb
      refine ⟨a, b, c, d, e, ?_, ?_⟩
      · intro q hq
        rcases f q hq with h0 | ⟨p', hm', hx'⟩
        · exact Or.inl h0
        · exact Or.inr ⟨p', by simp [hm'], hx'⟩
      · intro x hx
        exact g x (fun p' hm' => hx p' (by simp [hm']))
    · rw [cleanupStale, if_neg hp0]
      by_cases hpe : p ∈ st.extracted
      · rw [if_pos hpe]
        obtain ⟨a, b, c, d, e, f, g⟩ := ih st hg hb
        refine ⟨a, b, c, d, e, ?_, ?_⟩
        · intro q hq
          rcases f q hq with h0 | ⟨p', hm', hx'⟩
          · exact Or.inl h0
          · exact Or.inr ⟨p', by simp [hm'], hx'⟩
        · intro x hx
          exact g x (fun p' hm' => hx p' (by simp [hm']))
      · rw [if_neg hpe]
        dsimp only
        by_cases hrm : (removeExistingPath (rm (r ++ p))).1 = true
        · rw [if_pos hrm]
          obtain ⟨a, b, c, d, e, f, g⟩ := ih
            { st with fs := osRemoveAll st.fs (r ++ p),
                      removed := st.removed ++ [r ++ p] }
            (goodFs_osRemoveAll hg (r ++ p)) (baseDirs_osRemoveAll_append hb hp0)
          refine ⟨a, b, c, d, e, ?_, ?_⟩
          · intro q hq
            rcases f q hq with h0 | ⟨p', hm', hx1, hx2, hx3⟩
            · rcases List.mem_append.mp h0 with h1 | h1
              · exact Or.inl h1
              · exact Or.inr ⟨p, by simp, hpe, hp0, List.mem_singleton.mp h1⟩
            · exact Or.inr ⟨p', by simp [hm'], hx1, hx2, hx3⟩
          · intro x hx
            rw [g x (fun p' hm' => hx p' (by simp [hm']))]
            exact osRemoveAll_outside (hx p (by simp) hpe hp0)
        · rw [if_neg hrm]
          obtain ⟨a, b, c, d, e, f, g⟩ := ih st hg hb
          refine ⟨a, b, c, d, e, ?_, ?_⟩
          · intro q hq
            rcases f q hq with h0 | ⟨p', hm', hx'⟩
            · exact Or.inl h0
            · exact Or.inr ⟨p', by simp [hm'], hx'⟩
          · intro x hx
            exact g x (fun p' hm' => hx p' (by simp [hm']))

theorem baseDirs_addDirs_self {fs : Fs} {r : Path} (hno : hasFileAlong fs r = false) :
    BaseDirs r (addDirs fs r) := by
  intro q hq hqr
  cases hv : fs q with
  | some o =>
    cases o with
    | file c m t =>
      have := hasFileAlong_false_iff.mp hno q hqr
      rw [isFileAt, hv] at this
      exact absurd this (by simp)
    | dir => exact addDirs_of_some hv
  | none => exact addDirs_of_none_within hv hq hqr

/-- Inverting a successful `restoreGitRepo` run into its phases. -/
theorem restoreGitRepo_inv {RO : ROracle} {now : Nat} {r : Path}
    {entries : List Header} {fs0 : Fs} {st1 : RestoreState}
    (hrun : restoreGitRepo RO now r entries fs0 = Except.ok st1) :
    ∃ stA u,
      hasFileAlong fs0 r = false
      ∧ restoreEntries RO now r (RestoreState.mk (addDirs fs0 r) [] [] [] []) entries
          = Except.ok stA
      ∧ RO.untracked stA.fs = some u
      ∧ st1 = cleanupStale RO.rm r stA u := by
  rw [restoreGitRepo] at hrun
  by_cases hno : hasFileAlong fs0 r = true
  · rw [show osMkdirAll fs0 r = none from by simp [osMkdirAll, hno]] at hrun
    exact absurd hrun (by simp)
  · have hno' : hasFileAlong fs0 r = false := by simpa using hno
    rw [show osMkdirAll fs0 r = some (addDirs fs0 r) from by simp [osMkdirAll, hno']] at hrun
    dsimp only at hrun
    cases hA : restoreEntries RO now r (RestoreState.mk (addDirs fs0 r) [] [] [] []) entries with
    | error e =>
      rw [hA] at hrun
      exact absurd hrun (by simp)
    | ok stA =>
      rw [hA] at hrun
      dsimp only at hrun
      cases hu : RO.untracked stA.fs with
      | none =>
        rw [hu] at hrun
        exact absurd hrun (by simp)
      | some u =>
        rw [hu] at hrun
        dsimp only at hrun
        cases hrun
        exact ⟨stA, u, hno', rfl, hu, rfl⟩

/-- The second pass of an idempotent restore: every entry finds a file
with the same rounded mtime at its target and is skipped. -/
theorem restoreEntries_all_skip {RO : ROracle} {now : Nat} {r : Path} (es : List Header) :
    ∀ st : RestoreState,
    (∀ h ∈ es, h.typeflag = TypeFlag.reg) →
    (∀ h ∈ es, FileRoundAt st.fs (r ++ h.name) h.mtime) →
    restoreEntries RO now r st es = Except.ok
      { st with extracted := st.extracted ++ es.map Header.name,
                skipped := st.skipped ++ es.map (fun h => r ++ h.name) } := by
  induction es with
  | nil =>
    intro st _ _
    simp only [restoreEntries, List.map_nil, List.append_nil]
  | cons h es ih =>
    intro st hreg hfile
    obtain ⟨c, m, t, hv, hrt⟩ := hfile h (by simp)
    have hskip : skipCheck (FsObj.file c m t) h = true := by
      simp [skipCheck, hrt, hreg h (by simp)]
    have hstep : restoreEntry RO now r st h = Except.ok
        { st with extracted := st.extracted ++ [h.name],
                  skipped := st.skipped ++ [r ++ h.name] } := by
      rw [restoreEntry,
        if_neg (show ¬ h.typeflag ≠ TypeFlag.reg from fun hc => hc (hreg h (by simp)))]
      dsimp only
      rw [hv]
      dsimp only
      rw [if_pos hskip]
    rw [restoreEntries, hstep]
    dsimp only
    rw [ih { st with extracted := st.extracted ++ [h.name], skipped := st.skipped ++ [r ++ h.name] } (fun x hx => hreg x (by simp [hx])) (fun x hx => hfile x (by simp [hx]))]
    simp [List.append_assoc]

/-- C2 amended: for archives with nonempty, pairwise non-nested, distinct
entry paths — the data-model invariant, which the doubled submodule
prefix of `main.go` 113 lets the program itself violate (see the
counterexample) — restoring the same archive a second time into the
just-restored target performs zero content writes: every entry is skipped
by the modification-time comparison, the entry files are untouched, and
the reconciliation phase removes none of the files the first restore
wrote. Further hypotheses: a well-formed initial target tree and a sound
untracked-files query. -/
theorem c2_idempotent
    (RO : ROracle) (now now2 : Nat) (r : Path) (entries : List Header)
    (fs0 : Fs) (st1 : RestoreState)
    (hgood : GoodFs fs0)
    (hreg : ∀ h ∈ entries, h.typeflag = TypeFlag.reg)
    (hne : ∀ h ∈ entries, h.name ≠ [])
    (hpw : (entries.map Header.name).Pairwise NP)
    (hq : UntrackedSound RO r)
    (hrun1 : restoreGitRepo RO now r entries fs0 = Except.ok st1) :
    ∃ st2, restoreGitRepo RO now2 r entries st1.fs = Except.ok st2
      ∧ st2.written = []
      ∧ st2.skipped = entries.map (fun h => r ++ h.name)
      ∧ (∀ h ∈ entries, st2.fs (r ++ h.name) = st1.fs (r ++ h.name))
      ∧ (∀ w ∈ st1.written, w ∉ st2.removed) := by
  obtain ⟨stA, u1, hno0, hA, hu1, hcl⟩ := restoreGitRepo_inv hrun1
  have hgB : GoodFs (addDirs fs0 r) := goodFs_addDirs hgood hno0
  have hbB : BaseDirs r (addDirs fs0 r) := baseDirs_addDirs_self hno0
  obtain ⟨hgA, hbA, hexA, hfileA, hwA, _⟩ :=
    restoreEntries_facts entries _ stA hgB hbB hreg hne hpw hA
  dsimp only at hexA hwA
  simp only [List.nil_append] at hexA
  obtain ⟨u1', hu1', hsnd1⟩ := hq stA.fs
  have hueq : u1 = u1' := by
    rw [hu1] at hu1'
    exact Option.some.inj hu1'
  subst hueq
  have hnocover1 : ∀ h ∈ entries, ∀ p ∈ u1, p ∉ stA.extracted → p ≠ [] →
      ¬ (r ++ p <+: r ++ h.name) := by
    intro h hm p hp hpe hp0 hc
    have hpne2 : r ++ p ≠ r ++ h.name := by
      intro h0
      apply hpe
      rw [hexA]
      rw [show p = h.name from append_inj_right h0]
      exact List.mem_map.mpr ⟨h, hm, rfl⟩
    obtain ⟨cf, mf, tf, hvf⟩ := hsnd1 p hp
    obtain ⟨ch, mh, th, hvh, -⟩ := hfileA h hm
    have hd := hgA.1 (r ++ p) (r ++ h.name) (append_ne_nil_right hp0) hc hpne2
      (by rw [hvh]; simp)
    rw [hvf] at hd
    exact absurd hd (by simp)
  obtain ⟨hg1, hb1, hex1, hw1, hsk1, hrem1, hfr1⟩ := cleanupStale_facts u1 stA hgA hbA
  have hfile1 : ∀ h ∈ entries, FileRoundAt st1.fs (r ++ h.name) h.mtime := by
    intro h hm
    obtain ⟨ch, mh, th, hvh, hrt⟩ := hfileA h hm
    have heq : (cleanupStale RO.rm r stA u1).fs (r ++ h.name) = stA.fs (r ++ h.name) :=
      hfr1 h.name (fun p hp hpe hp0 => hnocover1 h hm p hp hpe hp0)
    rw [hcl]
    exact ⟨ch, mh, th, by rw [heq, hvh], hrt⟩
  have hg1' : GoodFs st1.fs := by
    rw [hcl]
    exact hg1
  have hb1' : BaseDirs r st1.fs := by
    rw [hcl]
    exact hb1
  have hw1' : ∀ w ∈ st1.written, ∃ h ∈ entries, w = r ++ h.name := by
    intro w hw
    rw [hcl, hw1] at hw
    rcases hwA w hw with h0 | h0
    · exact absurd h0 (by simp)
    · exact h0
  have hno1 : hasFileAlong st1.fs r = false := by
    rw [hasFileAlong_false_iff]
    intro q hq'
    by_cases hq0 : q = []
    · rw [hq0]
      exact hg1'.root_not_file
    · rw [isFileAt_false_iff]
      exact Or.inr (hb1' q hq0 hq')
  have haddid : addDirs st1.fs r = st1.fs := by
    funext q
    cases hv : st1.fs q with
    | some o => exact addDirs_of_some hv
    | none =>
      simp only [addDirs, hv]
      rw [if_neg]
      rintro ⟨hq0, hqr⟩
      have := hb1' q hq0 hqr
      rw [hv] at this
      exact absurd this (by simp)
  have hskipall := @restoreEntries_all_skip RO now2 r entries
      (RestoreState.mk st1.fs [] [] [] []) hreg (fun h hm => hfile1 h hm)
  have hskipall' : restoreEntries RO now2 r (RestoreState.mk st1.fs [] [] [] []) entries
      = Except.ok (RestoreState.mk st1.fs (entries.map Header.name) []
          (entries.map (fun h => r ++ h.name)) []) := by
    rw [hskipall]
    rfl
  obtain ⟨u2, hu2, hsnd2⟩ := hq st1.fs
  obtain ⟨hg2, hb2, hex2, hw2, hsk2, hrem2, hfr2⟩ := @cleanupStale_facts
    RO.rm r u2
    (RestoreState.mk st1.fs (entries.map Header.name) []
      (entries.map (fun h => r ++ h.name)) []) hg1' hb1'
  have hrun2 : restoreGitRepo RO now2 r entries st1.fs = Except.ok
      (cleanupStale RO.rm r (RestoreState.mk st1.fs (entries.map Header.name) []
        (entries.map (fun h => r ++ h.name)) []) u2) := by
    rw [restoreGitRepo,
      show osMkdirAll st1.fs r = some (addDirs st1.fs r) from by simp [osMkdirAll, hno1],
      haddid]
    dsimp only
    rw [hskipall']
    dsimp only
    rw [hu2]
  have hnocover2 : ∀ h ∈ entries, ∀ p ∈ u2, p ∉ entries.map Header.name → p ≠ [] →
      ¬ (r ++ p <+: r ++ h.name) := by
    intro h hm p hp hpe hp0 hc
    have hpne2 : r ++ p ≠ r ++ h.name := by
      intro h0
      apply hpe
      rw [show p = h.name from append_inj_right h0]
      exact List.mem_map.mpr ⟨h, hm, rfl⟩
    obtain ⟨cf, mf, tf, hvf⟩ := hsnd2 p hp
    obtain ⟨ch, mh, th, hvh, -⟩ := hfile1 h hm
    have hd := hg1'.1 (r ++ p) (r ++ h.name) (append_ne_nil_right hp0) hc hpne2
      (by rw [hvh]; simp)
    rw [hvf] at hd
    exact absurd hd (by simp)
  refine ⟨_, hrun2, ?_, ?_, ?_, ?_⟩
  · rw [hw2]
  · rw [hsk2]
  · intro h hm
    exact hfr2 h.name (fun p hp hpe hp0 => hnocover2 h hm p hp hpe hp0)
  · intro w hw hwrem
    obtain ⟨h, hm, rfl⟩ := hw1' w hw
    rcases hrem2 _ hwrem with h0 | ⟨p, hp, hpe, hp0, heq⟩
    · exact absurd h0 (by simp)
    · apply hpe
      rw [show p = h.name from append_inj_right heq.symm]
      exact List.mem_map.mpr ⟨h, hm, rfl⟩

/-! ## Single-step constructions for the per-entry claims -/

theorem goodFs_empty : GoodFs Fs.empty :=
  ⟨fun _ _ _ _ _ hq => absurd rfl hq, Or.inl rfl⟩

theorem goodFs_singletonFs (nm : String) (o : FsObj) : GoodFs (singletonFs nm o) := by
  constructor
  · intro p q hp hpq hne hq
    have hq' : q = [nm] := by
      by_contra h0
      simp [singletonFs, h0] at hq
    rw [hq'] at hpq hne
    have h1 := length_lt_of_strict_pre hpq hne
    rw [List.length_singleton] at h1
    have h2 : 0 < p.length := List.length_pos.mpr hp
    omega
  · left
    simp [singletonFs]

theorem hasFileAlong_osRemoveAll_target {fs : Fs} {r nm : Path} (hg : GoodFs fs)
    (hne : nm ≠ []) (ho : fs (r ++ nm) ≠ none) :
    hasFileAlong (osRemoveAll fs (r ++ nm)) (r ++ nm).dropLast = false := by
  have htne : r ++ nm ≠ [] := append_ne_nil_right hne
  have hanc := hg.anc_dir (t := r ++ nm) ho
  rw [hasFileAlong_false_iff]
  intro q hq
  obtain ⟨hq1, hq2⟩ := strict_of_prefix_dropLast htne hq
  by_cases hq0 : q = []
  · rw [isFileAt, hq0, osRemoveAll_outside
      (fun hc : r ++ nm <+: [] => htne (List.prefix_nil.mp hc))]
    have := hg.root_not_file
    rw [isFileAt] at this
    exact this
  · have hdir := hanc q hq0 hq1 hq2
    rw [isFileAt]
    by_cases hp : (r ++ nm) <+: q
    · rw [osRemoveAll_within hp]
    · rw [osRemoveAll_outside hp, hdir]

/-- The skip branch of the restore loop, constructively. -/
theorem restoreEntry_skip {RO : ROracle} {now : Nat} {r : Path}
    {st : RestoreState} {h : Header} {c : List Nat} {m t : Nat}
    (hreg : h.typeflag = TypeFlag.reg)
    (hst : st.fs (r ++ h.name) = some (FsObj.file c m t))
    (hrt : roundSec t = roundSec h.mtime) :
    restoreEntry RO now r st h = Except.ok
      { st with extracted := st.extracted ++ [h.name],
                skipped := st.skipped ++ [r ++ h.name] } := by
  rw [restoreEntry, if_neg (show ¬ h.typeflag ≠ TypeFlag.reg from fun hc => hc hreg)]
  dsimp only
  rw [hst]
  dsimp only
  rw [if_pos (show skipCheck (FsObj.file c m t) h = true from by simp [skipCheck, hrt, hreg])]

/-- The overwrite branch of the restore loop, constructively. -/
theorem restoreEntry_overwrite {RO : ROracle} {now : Nat} {r : Path}
    {st : RestoreState} {h : Header} {o : FsObj}
    (hg : GoodFs st.fs) (hreg : h.typeflag = TypeFlag.reg) (hne : h.name ≠ [])
    (hst : st.fs (r ++ h.name) = some o) (hskip : skipCheck o h = false)
    (hrm : (removeExistingPath (RO.rm (r ++ h.name))).1 = true) :
    restoreEntry RO now r st h = Except.ok
      { st with
        fs := fsUpdate (addDirs (osRemoveAll st.fs (r ++ h.name)) (r ++ h.name).dropLast)
          (r ++ h.name) (FsObj.file h.content h.mode h.mtime),
        extracted := st.extracted ++ [h.name],
        written := st.written ++ [r ++ h.name] } := by
  have htne : r ++ h.name ≠ [] := append_ne_nil_right hne
  have hno := hasFileAlong_osRemoveAll_target hg hne (by rw [hst]; simp)
  rw [restoreEntry, if_neg (show ¬ h.typeflag ≠ TypeFlag.reg from fun hc => hc hreg)]
  dsimp only
  rw [hst]
  dsimp only
  rw [if_neg (show ¬ skipCheck o h = true from by rw [hskip]; simp), if_pos hrm]
  rw [@writeEntry_clean RO.rm now (r ++ h.name) h { st with fs := osRemoveAll st.fs (r ++ h.name), extracted := st.extracted ++ [h.name] } hno ?htgt3]
  case htgt3 =>
    rw [show ({ st with fs := osRemoveAll st.fs (r ++ h.name), extracted := st.extracted ++ [h.name] } : RestoreState).fs = osRemoveAll st.fs (r ++ h.name) from rfl]
    rw [addDirs_of_none_outside osRemoveAll_self (not_self_prefix_dropLast htne)]
    simp

theorem writeEntry_extracted {rm : Path → RmOracle} {now : Nat} {target : Path}
    {h : Header} {st st' : RestoreState}
    (hrun : writeEntry rm now target h st = Except.ok st') :
    st'.extracted = st.extracted := by
  rw [writeEntry] at hrun
  cases hx : extractFile rm now target h st.fs with
  | error e =>
    rw [hx] at hrun
    exact absurd hrun (by simp)
  | ok fs1 =>
    rw [hx] at hrun
    dsimp only at hrun
    cases hrun
    rfl

/-- A regular entry's path lands in `extractedPaths` whether the entry is
ultimately skipped, overwritten, or freshly written. -/
theorem restoreEntry_records {RO : ROracle} {now : Nat} {r : Path}
    {st st' : RestoreState} {h : Header}
    (hreg : h.typeflag = TypeFlag.reg)
    (hrun : restoreEntry RO now r st h = Except.ok st') :
    st'.extracted = st.extracted ++ [h.name] := by
  rw [restoreEntry, if_neg (show ¬ h.typeflag ≠ TypeFlag.reg from fun hc => hc hreg)] at hrun
  dsimp only at hrun
  cases hst : st.fs (r ++ h.name) with
  | some o =>
    rw [hst] at hrun
    dsimp only at hrun
    by_cases hskip : skipCheck o h = true
    · rw [if_pos hskip] at hrun
      cases hrun
      rfl
    · rw [if_neg hskip] at hrun
      by_cases hrm : (removeExistingPath (RO.rm (r ++ h.name))).1 = true
      · rw [if_pos hrm] at hrun
        exact writeEntry_extracted hrun
      · rw [if_neg hrm] at hrun
        exact absurd hrun (by simp)
  | none =>
    rw [hst] at hrun
    dsimp only at hrun
    exact writeEntry_extracted hrun

/-- Exact removal list of the reconciliation loop when removals succeed. -/
theorem cleanupStale_removed_exact {rm : Path → RmOracle} {r : Path}
    (hrm : ∀ p : Path, (removeExistingPath (rm p)).1 = true) (u : List Path) :
    ∀ st : RestoreState,
    (cleanupStale rm r st u).removed
      = st.removed ++ (u.filter (fun p => decide (p ≠ [] ∧ p ∉ st.extracted))).map
          (fun p => r ++ p) := by
  induction u with
  | nil =>
    intro st
    simp [cleanupStale]
  | cons p ps ih =>
    intro st
    by_cases hp0 : p = []
    · rw [cleanupStale, if_pos hp0, ih st]
      have : (decide (p ≠ [] ∧ p ∉ st.extracted)) = false := by
        simp [hp0]
      rw [List.filter_cons, this]
      simp
    · by_cases hpe : p ∈ st.extracted
      · rw [cleanupStale, if_neg hp0, if_pos hpe, ih st]
        have : (decide (p ≠ [] ∧ p ∉ st.extracted)) = false := by
          simp [hpe]
        rw [List.filter_cons, this]
        simp
      · rw [cleanupStale, if_neg hp0, if_neg hpe]
        dsimp only
        rw [if_pos (hrm (r ++ p))]
        rw [ih { st with fs := osRemoveAll st.fs (r ++ p), removed := st.removed ++ [r ++ p] }]
        have : (decide (p ≠ [] ∧ p ∉ st.extracted)) = true := by
          simp [hp0, hpe]
        rw [List.filter_cons, this]
        simp [List.append_assoc]

/-- Every path the reconciliation loop removes was reported untracked and
was not extracted: tracked or ignored files are never candidates. -/
theorem cleanupStale_removed_subset {rm : Path → RmOracle} {r : Path} (u : List Path) :
    ∀ st : RestoreState, ∀ q ∈ (cleanupStale rm r st u).removed,
      q ∈ st.removed ∨ ∃ p ∈ u, p ∉ st.extracted ∧ q = r ++ p := by
  induction u with
  | nil =>
    intro st q hq
    exact Or.inl hq
  | cons p ps ih =>
    intro st q hq
    by_cases hp0 : p = []
    · rw [cleanupStale, if_pos hp0] at hq
      rcases ih st q hq with h0 | ⟨p', hm', hx'⟩
      · exact Or.inl h0
      · exact Or.inr ⟨p', by simp [hm'], hx'⟩
    · by_cases hpe : p ∈ st.extracted
      · rw [cleanupStale, if_neg hp0, if_pos hpe] at hq
        rcases ih st q hq with h0 | ⟨p', hm', hx'⟩
        · exact Or.inl h0
        · exact Or.inr ⟨p', by simp [hm'], hx'⟩
      · rw [cleanupStale, if_neg hp0, if_neg hpe] at hq
        dsimp only at hq
        by_cases hrm : (removeExistingPath (rm (r ++ p))).1 = true
        · rw [if_pos hrm] at hq
          rcases ih _ q hq with h0 | ⟨p', hm', hx1, hx2⟩
          · rcases List.mem_append.mp h0 with h1 | h1
            · exact Or.inl h1
            · exact Or.inr ⟨p, by simp, hpe, List.mem_singleton.mp h1⟩
          · exact Or.inr ⟨p', by simp [hm'], hx1, hx2⟩
        · rw [if_neg hrm] at hq
          rcases ih st q hq with h0 | ⟨p', hm', hx'⟩
          · exact Or.inl h0
          · exact Or.inr ⟨p', by simp [hm'], hx'⟩

/-! ## The claims -/

/-- C3: for a regular-file entry, an existing regular file whose mtime
rounds to the same second as the entry's is skipped — no write, no
permission or time change — while an existing file with a differing
rounded mtime (for example 5 seconds newer) is removed, the content
written, and the file's mode bits and mtime set to the header's exact
values afterwards. -/
theorem c3_skip_or_overwrite
    (RO : ROracle) (now : Nat) (r : Path) (st : RestoreState) (h : Header)
    (c : List Nat) (m t : Nat)
    (hreg : h.typeflag = TypeFlag.reg) :
    (st.fs (r ++ h.name) = some (FsObj.file c m t) → roundSec t = roundSec h.mtime →
      restoreEntry RO now r st h = Except.ok
        { st with extracted := st.extracted ++ [h.name],
                  skipped := st.skipped ++ [r ++ h.name] })
    ∧ (st.fs (r ++ h.name) = some (FsObj.file c m t) → roundSec t ≠ roundSec h.mtime →
      (removeExistingPath (RO.rm (r ++ h.name))).1 = true →
      h.name ≠ [] → GoodFs st.fs →
      ∃ st', restoreEntry RO now r st h = Except.ok st'
        ∧ st'.fs (r ++ h.name) = some (FsObj.file h.content h.mode h.mtime)
        ∧ st'.written = st.written ++ [r ++ h.name]
        ∧ st'.extracted = st.extracted ++ [h.name]) := by
  constructor
  · intro hst hrt
    exact restoreEntry_skip hreg hst hrt
  · intro hst hrt hrm hne hg
    refine ⟨_, restoreEntry_overwrite hg hreg hne hst ?_ hrm, fsUpdate_self, rfl, rfl⟩
    simp [skipCheck, hrt]

/-- C3 witness: a file whose mtime equals the header's is skipped with
nothing written; a file 5 seconds newer (6s vs the header's 1s) is
overwritten with content, mode and mtime taken from the header. -/
theorem c3_witness :
    (restoreEntry trivRO 7 []
        (RestoreState.mk (singletonFs "a.txt" (FsObj.file [0] 420 1000000000)) [] [] [] [])
        (Header.mk ["a.txt"] TypeFlag.reg 493 1000000000 [5])
      = Except.ok (RestoreState.mk (singletonFs "a.txt" (FsObj.file [0] 420 1000000000))
          [["a.txt"]] [] [["a.txt"]] []))
    ∧ (∃ st', restoreEntry trivRO 7 []
        (RestoreState.mk (singletonFs "a.txt" (FsObj.file [0] 420 6000000000)) [] [] [] [])
        (Header.mk ["a.txt"] TypeFlag.reg 493 1000000000 [5]) = Except.ok st'
      ∧ st'.fs ["a.txt"] = some (FsObj.file [5] 493 1000000000)
      ∧ st'.written = [["a.txt"]]
      ∧ st'.extracted = [["a.txt"]]) :=
  ⟨(c3_skip_or_overwrite trivRO 7 []
      (RestoreState.mk (singletonFs "a.txt" (FsObj.file [0] 420 1000000000)) [] [] [] [])
      (Header.mk ["a.txt"] TypeFlag.reg 493 1000000000 [5]) [0] 420 1000000000 rfl).1
      (by decide) (by decide),
   (c3_skip_or_overwrite trivRO 7 []
      (RestoreState.mk (singletonFs "a.txt" (FsObj.file [0] 420 6000000000)) [] [] [] [])
      (Header.mk ["a.txt"] TypeFlag.reg 493 1000000000 [5]) [0] 420 6000000000 rfl).2
      (by decide) (by decide) (by decide) (by decide) (goodFs_singletonFs _ _)⟩

/-- C9: a directory sitting at a regular-file entry's target path is
never skipped, whatever its timestamps: it is removed and replaced by
the regular file, and nothing is reported skipped. -/
theorem c9_dir_never_skipped
    (RO : ROracle) (now : Nat) (r : Path) (st : RestoreState) (h : Header)
    (hreg : h.typeflag = TypeFlag.reg) (hne : h.name ≠ [])
    (hg : GoodFs st.fs)
    (hdir : st.fs (r ++ h.name) = some FsObj.dir)
    (hrm : (removeExistingPath (RO.rm (r ++ h.name))).1 = true) :
    ∃ st', restoreEntry RO now r st h = Except.ok st'
      ∧ st'.fs (r ++ h.name) = some (FsObj.file h.content h.mode h.mtime)
      ∧ st'.written = st.written ++ [r ++ h.name]
      ∧ st'.skipped = st.skipped :=
  ⟨_, restoreEntry_overwrite hg hreg hne hdir rfl hrm, fsUpdate_self, rfl, rfl⟩

/-- C9 witness: a directory at the target path is replaced by the file. -/
theorem c9_witness :
    ∃ st', restoreEntry trivRO 3 []
        (RestoreState.mk (singletonFs "d" FsObj.dir) [] [] [] [])
        (Header.mk ["d"] TypeFlag.reg 420 9000000000 [1]) = Except.ok st'
      ∧ st'.fs ["d"] = some (FsObj.file [1] 420 9000000000)
      ∧ st'.written = [["d"]]
      ∧ st'.skipped = [] :=
  c9_dir_never_skipped trivRO 3 []
    (RestoreState.mk (singletonFs "d" FsObj.dir) [] [] [] [])
    (Header.mk ["d"] TypeFlag.reg 420 9000000000 [1])
    rfl (by decide) (goodFs_singletonFs _ _) (by decide) (by decide)

/-- C4: every regular entry's path is recorded in `extractedPaths` even
when the entry is skipped; when removals succeed the reconciliation
removes exactly the untracked-reported paths not in `extractedPaths`;
and nothing outside the untracked report is ever removed (tracked or
ignored files are not candidates). -/
theorem c4_reconciliation
    (RO : ROracle) (now : Nat) (r : Path) (st : RestoreState) (u : List Path) :
    (∀ (st0 st1 : RestoreState) (h : Header), h.typeflag = TypeFlag.reg →
        restoreEntry RO now r st0 h = Except.ok st1 →
        st1.extracted = st0.extracted ++ [h.name])
    ∧ ((∀ p : Path, (removeExistingPath (RO.rm p)).1 = true) →
        (cleanupStale RO.rm r st u).removed
          = st.removed ++ (u.filter (fun p => decide (p ≠ [] ∧ p ∉ st.extracted))).map
              (fun p => r ++ p))
    ∧ (∀ q ∈ (cleanupStale RO.rm r st u).removed,
        q ∈ st.removed ∨ ∃ p ∈ u, p ∉ st.extracted ∧ q = r ++ p) :=
  ⟨fun _ _ _ hreg hrun => restoreEntry_records hreg hrun,
   fun hrm => cleanupStale_removed_exact hrm u st,
   fun q hq => cleanupStale_removed_subset u st q hq⟩

/-- C4 witness: with `keep` extracted and the untracked query reporting
`keep`, `junk` and a blank line, exactly `junk` is removed. -/
theorem c4_witness :
    (cleanupStale trivRO.rm [] (RestoreState.mk Fs.empty [["keep"]] [] [] [])
        [["keep"], ["junk"], []]).removed
      = [] ++ (([["keep"], ["junk"], []] : List Path).filter
          (fun p => decide (p ≠ [] ∧ p ∉ [(["keep"] : Path)]))).map (fun p => [] ++ p) :=
  (c4_reconciliation trivRO 0 [] (RestoreState.mk Fs.empty [["keep"]] [] [] [])
    [["keep"], ["junk"], []]).2.1 (fun _ => rfl)

/-- C6 counterexample: an archive whose only entry is a symbolic link.
The claim says restore must fail with an unsupported-entry-kind error;
the source (`main.go` 221-223) instead `continue`s, so the restore
succeeds, records nothing in `extractedPaths`, and writes nothing. -/
theorem c6_counterexample :
    isOkE (restoreGitRepo trivRO 0 [] [Header.mk ["lnk"] TypeFlag.symlink 420 0 []] Fs.empty)
        = true
    ∧ resExtracted (restoreGitRepo trivRO 0 []
        [Header.mk ["lnk"] TypeFlag.symlink 420 0 []] Fs.empty) = some []
    ∧ resWritten (restoreGitRepo trivRO 0 []
        [Header.mk ["lnk"] TypeFlag.symlink 420 0 []] Fs.empty) = some [] := by
  decide

/-- C6 amended: restore silently passes over every entry whose kind is
not regular file (directories, symlinks and all other kinds alike): no
error is raised, nothing is written, and the entry's path is not even
recorded in `extractedPaths`. -/
theorem c6_amended (RO : ROracle) (now : Nat) (r : Path) (st : RestoreState) (h : Header)
    (hnr : h.typeflag ≠ TypeFlag.reg) :
    restoreEntry RO now r st h = Except.ok st := by
  rw [restoreEntry, if_pos hnr]

/-- C6 amended witness: a symlink entry leaves the state untouched. -/
theorem c6_amended_witness :
    restoreEntry trivRO 0 [] (RestoreState.mk Fs.empty [] [] [] [])
        (Header.mk ["lnk"] TypeFlag.symlink 420 0 [])
      = Except.ok (RestoreState.mk Fs.empty [] [] [] []) :=
  c6_amended trivRO 0 [] (RestoreState.mk Fs.empty [] [] [] [])
    (Header.mk ["lnk"] TypeFlag.symlink 420 0 []) (by decide)

/-- C8 counterexample: an empty archive restored over a tree with the
stale untracked file `junk`, on oracles where every removal fails. The
claim says a removal failure during reconciliation is fatal; the source
discards the error (`main.go` 273), so restore reports success, removes
nothing, and leaves `junk` behind. -/
theorem c8_counterexample :
    isOkE (restoreGitRepo c8RO 0 [] [] c8fs) = true
    ∧ resRemoved (restoreGitRepo c8RO 0 [] [] c8fs) = some []
    ∧ resFsAt (restoreGitRepo c8RO 0 [] [] c8fs) ["junk"]
        = some (some (FsObj.file [] 420 0)) := by
  decide

/-- C8 amended: removal attempts a recursive delete and retries exactly
once, precisely when the first attempt fails with a permission error and
the chmod escalation succeeds; the delete succeeds exactly when the
first attempt succeeds or that retry does. A removal failure during the
extraction phase is fatal to the restore, but a removal failure during
the post-restore reconciliation is silently ignored and the loop keeps
going. -/
theorem c8_amended :
    (∀ o : RmOracle, ((removeExistingPath o).1 = true ↔
        (o.firstTry = RmOutcome.ok
          ∨ (o.firstTry = RmOutcome.permDenied ∧ o.chmodOk = true
              ∧ o.secondTry = RmOutcome.ok))))
    ∧ (∀ o : RmOracle, ((removeExistingPath o).2 = 2 ↔
        (o.firstTry = RmOutcome.permDenied ∧ o.chmodOk = true)))
    ∧ (∀ (RO : ROracle) (now : Nat) (r : Path) (st : RestoreState) (h : Header) (o : FsObj),
        h.typeflag = TypeFlag.reg → st.fs (r ++ h.name) = some o → skipCheck o h = false →
        (removeExistingPath (RO.rm (r ++ h.name))).1 = false →
        restoreEntry RO now r st h = Except.error RErr.removeError)
    ∧ (∀ (rm : Path → RmOracle) (r : Path) (st : RestoreState) (p : Path) (ps : List Path),
        p ≠ [] → p ∉ st.extracted → (removeExistingPath (rm (r ++ p))).1 = false →
        cleanupStale rm r st (p :: ps) = cleanupStale rm r st ps) := by
  refine ⟨?_, ?_, ?_, ?_⟩
  · intro o
    rcases o with ⟨f, ch, s⟩
    cases f <;> cases ch <;> cases s <;> simp [removeExistingPath]
  · intro o
    rcases o with ⟨f, ch, s⟩
    cases f <;> cases ch <;> cases s <;> simp [removeExistingPath]
  · intro RO now r st h o hreg hst hskip hrm
    rw [restoreEntry, if_neg (show ¬ h.typeflag ≠ TypeFlag.reg from fun hc => hc hreg)]
    dsimp only
    rw [hst]
    dsimp only
    rw [if_neg (show ¬ skipCheck o h = true from by rw [hskip]; simp),
      if_neg (show ¬ (removeExistingPath (RO.rm (r ++ h.name))).1 = true from by rw [hrm]; simp)]
  · intro rm r st p ps hp0 hpe hrm
    rw [cleanupStale, if_neg hp0, if_neg hpe]
    dsimp only
    rw [if_neg (show ¬ (removeExistingPath (rm (r ++ p))).1 = true from by rw [hrm]; simp)]

/-- C8 amended witness: a permission failure with successful chmod leads
to a successful second attempt (two `RemoveAll` calls); an extraction
over a mismatched file with failing removal aborts the restore; a
failing removal in the reconciliation loop is skipped over silently. -/
theorem c8_amended_witness :
    (removeExistingPath (RmOracle.mk RmOutcome.permDenied true RmOutcome.ok)).1 = true
    ∧ (removeExistingPath (RmOracle.mk RmOutcome.permDenied true RmOutcome.ok)).2 = 2
    ∧ restoreEntry c8RO 0 []
        (RestoreState.mk (singletonFs "a" (FsObj.file [] 420 0)) [] [] [] [])
        (Header.mk ["a"] TypeFlag.reg 420 5000000000 [9]) = Except.error RErr.removeError
    ∧ cleanupStale c8RO.rm [] (RestoreState.mk Fs.empty [] [] [] []) [["junk"]]
        = cleanupStale c8RO.rm [] (RestoreState.mk Fs.empty [] [] [] []) [] :=
  ⟨(c8_amended.1 (RmOracle.mk RmOutcome.permDenied true RmOutcome.ok)).mpr
      (Or.inr ⟨rfl, rfl, rfl⟩),
   (c8_amended.2.1 (RmOracle.mk RmOutcome.permDenied true RmOutcome.ok)).mpr ⟨rfl, rfl⟩,
   c8_amended.2.2.1 c8RO 0 []
     (RestoreState.mk (singletonFs "a" (FsObj.file [] 420 0)) [] [] [] [])
     (Header.mk ["a"] TypeFlag.reg 420 5000000000 [9]) (FsObj.file [] 420 0)
     rfl (by decide) (by decide) (by decide),
   c8_amended.2.2.2 c8RO.rm [] (RestoreState.mk Fs.empty [] [] [] []) ["junk"] []
     (by decide) (by decide) (by decide)⟩

/-- C5: the source joins the submodule prefix twice (`main.go` 113:
`Prefix: Join(rootDir.Prefix, archivePath)` where `archivePath` is
already `Join(rootDir.Prefix, entry)`). For the nested submodule
`R/s/t`, the file `f` is archived at `s/s/t/f` instead of the
repository-relative `s/t/f` the claim requires. -/
theorem c5_nested_prefix_bug :
    (addEntry c5G c5src 4 [RootDir.mk [] ["R"]]).map (List.map Header.name)
      = some [["s", "s", "t", "f"]]
    ∧ (["s", "t", "f"] : Path) ∉ [(["s", "s", "t", "f"] : Path)] := by
  decide

/-- C7: with a nested submodule `t` inside submodule `s`, and an
ordinary untracked file at the literal path `s/t/z` inside `s`, the
doubled prefix makes both land at archive path `s/s/t/z`: the emitted
entry sequence contains the same path twice. -/
theorem c7_duplicate_paths_bug :
    (addEntry c7G c7src 4 [RootDir.mk [] ["R"]]).map (List.map Header.name)
      = some [["s", "s", "t", "z"], ["s", "s", "t", "z"]]
    ∧ ¬ ([(["s", "s", "t", "z"] : Path), ["s", "s", "t", "z"]].Nodup) := by
  decide

/-- C1 counterexample: the unrestricted round-trip claim fails on a
repository the program itself mishandles. Archiving the duplicate-path
repository `c7src` emits two regular-file entries both named `s/s/t/z`,
with contents `[2]` and `[1]`; restoring that stream into an empty
directory succeeds but leaves content `[2]` at the path, so the emitted
entry with content `[1]` is not reproduced with identical content. -/
theorem c1_counterexample :
    (archiveGitRepo dupA c7src 4 ["R"]).1 = Except.ok c1es
    ∧ c1es.map Header.name = [["s", "s", "t", "z"], ["s", "s", "t", "z"]]
    ∧ c1es.map Header.content = [[2], [1]]
    ∧ isOkE (restoreGitRepo trivRO 0 ["t"] c1es Fs.empty) = true
    ∧ resFsAt (restoreGitRepo trivRO 0 ["t"] c1es Fs.empty) ["t", "s", "s", "t", "z"]
        = some (some (FsObj.file [2] 420 0)) :=
  ⟨rfl, rfl, rfl, rfl, rfl⟩

/-- C2 counterexample: the unrestricted idempotence claim fails on an
archive the program itself produces. Archiving `c2src` emits the path
`s/s/t/z` twice with rounded mtimes 0 and 2; after a first successful
restore into an empty directory, the file on disk carries the second
entry's mtime, so on a second restore the first entry's mtime no longer
matches: both entries are rewritten (two content writes, nothing
skipped) instead of every entry being skipped. -/
theorem c2_counterexample :
    (archiveGitRepo dupA c2src 4 ["R"]).1 = Except.ok c2es
    ∧ isOkE (restoreGitRepo trivRO 0 ["t"] c2es Fs.empty) = true
    ∧ resWritten (restoreGitRepo trivRO 1 ["t"] c2es
        (resFs (restoreGitRepo trivRO 0 ["t"] c2es Fs.empty)))
        = some [["t", "s", "s", "t", "z"], ["t", "s", "s", "t", "z"]]
    ∧ resSkipped (restoreGitRepo trivRO 1 ["t"] c2es
        (resFs (restoreGitRepo trivRO 0 ["t"] c2es Fs.empty)))
        = some [] :=
  ⟨rfl, rfl, rfl, rfl⟩

/-- C10: when the repository path cannot be statted, is a regular file,
or is not inside a git work tree, archiving fails before `os.Create` is
reached, so no output file is created. -/
theorem c10_validation_before_create
    (O : AOracle) (src : Fs) (fuel : Nat) (p : Path)
    (hbad : src p = none ∨ (∃ c m t, src p = some (FsObj.file c m t))
        ∨ O.isInsideWorkTree p = false) :
    (archiveGitRepo O src fuel p).2 = false
    ∧ ∃ e, (archiveGitRepo O src fuel p).1 = Except.error e := by
  rcases hbad with h0 | ⟨c, m, t, h0⟩ | h0
  · refine ⟨?_, AErr.accessError, ?_⟩ <;> simp [archiveGitRepo, h0]
  · refine ⟨?_, AErr.notADirectory, ?_⟩ <;> simp [archiveGitRepo, h0]
  · cases hv : src p with
    | none => refine ⟨?_, AErr.accessError, ?_⟩ <;> simp [archiveGitRepo, hv]
    | some o =>
      cases o with
      | file c m t => refine ⟨?_, AErr.notADirectory, ?_⟩ <;> simp [archiveGitRepo, hv]
      | dir => refine ⟨?_, AErr.notAGitRepo, ?_⟩ <;> simp [archiveGitRepo, hv, h0]

/-- C10 witness: a missing repository path fails without touching the
output file. -/
theorem c10_witness :
    (archiveGitRepo c10O Fs.empty 1 ["x"]).2 = false
    ∧ ∃ e, (archiveGitRepo c10O Fs.empty 1 ["x"]).1 = Except.error e :=
  c10_validation_before_create c10O Fs.empty 1 ["x"] (Or.inl rfl)

/-- C1 witness: a one-file repository archives to a single entry which
restores into an empty directory as exactly that file. -/
theorem c1_round_trip_witness :
    ∃ st, restoreGitRepo trivRO 0 ["t"] [Header.mk ["a"] TypeFlag.reg 420 5 [1]] Fs.empty
        = Except.ok st
      ∧ (∀ h ∈ [Header.mk ["a"] TypeFlag.reg 420 5 [1]],
          st.fs (["t"] ++ h.name) = some (FsObj.file h.content h.mode h.mtime))
      ∧ (∀ p : Path, (∃ c m t, st.fs (["t"] ++ p) = some (FsObj.file c m t))
          ↔ p ∈ ([Header.mk ["a"] TypeFlag.reg 420 5 [1]].map Header.name)) :=
  c1_round_trip c1G c1src 2 ["R"] [Header.mk ["a"] TypeFlag.reg 420 5 [1]] trivRO 0 ["t"]
    (by decide) (by decide) (by decide)
    (fun _ => ⟨[], rfl, fun p hp => absurd hp (by simp)⟩)

/-- C2 witness: restoring the one-entry archive a second time over its
own first restoration skips the entry, writes nothing and removes
nothing. -/
theorem c2_idempotent_witness :
    ∃ st2, restoreGitRepo trivRO 1 ["t"] [Header.mk ["a"] TypeFlag.reg 420 5 [1]]
        (RestoreState.mk (expectedFs ["t"] [Header.mk ["a"] TypeFlag.reg 420 5 [1]])
          ([Header.mk ["a"] TypeFlag.reg 420 5 [1]].map Header.name)
          ([Header.mk ["a"] TypeFlag.reg 420 5 [1]].map (fun h => ["t"] ++ h.name)) [] []).fs
        = Except.ok st2
      ∧ st2.written = []
      ∧ st2.skipped = [Header.mk ["a"] TypeFlag.reg 420 5 [1]].map (fun h => ["t"] ++ h.name)
      ∧ (∀ h ∈ [Header.mk ["a"] TypeFlag.reg 420 5 [1]],
          st2.fs (["t"] ++ h.name)
            = (RestoreState.mk (expectedFs ["t"] [Header.mk ["a"] TypeFlag.reg 420 5 [1]])
                ([Header.mk ["a"] TypeFlag.reg 420 5 [1]].map Header.name)
                ([Header.mk ["a"] TypeFlag.reg 420 5 [1]].map (fun h => ["t"] ++ h.name))
                [] []).fs (["t"] ++ h.name))
      ∧ (∀ w ∈ (RestoreState.mk (expectedFs ["t"] [Header.mk ["a"] TypeFlag.reg 420 5 [1]])
            ([Header.mk ["a"] TypeFlag.reg 420 5 [1]].map Header.name)
            ([Header.mk ["a"] TypeFlag.reg 420 5 [1]].map (fun h => ["t"] ++ h.name))
            [] []).written, w ∉ st2.removed) :=
  c2_idempotent trivRO 0 1 ["t"] [Header.mk ["a"] TypeFlag.reg 420 5 [1]] Fs.empty
    (RestoreState.mk (expectedFs ["t"] [Header.mk ["a"] TypeFlag.reg 420 5 [1]])
      ([Header.mk ["a"] TypeFlag.reg 420 5 [1]].map Header.name)
      ([Header.mk ["a"] TypeFlag.reg 420 5 [1]].map (fun h => ["t"] ++ h.name)) [] [])
    goodFs_empty (by decide) (by decide) (by decide)
    (fun _ => ⟨[], rfl, fun p hp => absurd hp (by simp)⟩)
    (restoreGitRepo_fresh (by decide) (by decide) (by decide) rfl
      (fun p hp => absurd hp (by simp)))

end RepoArk
